import Mathlib

/-!
Verification of the nephesh agent engine.

This file is a shallow embedding, in Lean 4, of the parts of the nephesh
source that the verified properties speak about:

* `app/schema.py` — messages, tool calls, the `Memory` store with
  compaction (`compress_memory`) and materialization
  (`get_memory_with_summaries`);
* `app/evaluation/self_evaluation.py` — the self-evaluator's response
  parsing (`_parse_evaluation_response`);
* `app/agent/base.py` — the base agent's `run` loop and its
  `state_context` state handling;
* `app/tool/wait_for_user_input.py` — the wait-for-input tool;
* `app/flow/planning.py` — the plan scheduler (`PlanningFlow.execute`,
  `_get_current_step_info`, `_update_step_status`).

Modelling conventions: Python lists become `List`, `Optional[T]` becomes
`Option T`, Python `float` configuration values (`compression_ratio`,
evaluation scores) become `ℚ` (all exercised values are exact decimals),
`time.time()` timestamps are opaque to every verified property and are
modelled as `0`, and raised exceptions become `Except` results.  External
collaborators (the LLM, the executor agents driven by the scheduler, tool
back-ends) are modelled as oracles supplied as function arguments, so all
theorems quantify over their behaviour.
-/

namespace Nephesh

/-- Message role options (`app/schema.py`, `class Role`). -/
inductive Role where
  | system
  | user
  | assistant
  | tool
deriving DecidableEq, Repr

/-- The string value of a role (`Role` is a `str` enum in the source). -/
def Role.value : Role → String
  | .system => "system"
  | .user => "user"
  | .assistant => "assistant"
  | .tool => "tool"

/-- Agent execution states (`app/schema.py`, `class AgentState`).  The
source enum has exactly these four members: `IDLE`, `RUNNING`,
`FINISHED`, `ERROR`. -/
inductive AgentState where
  | IDLE
  | RUNNING
  | FINISHED
  | ERROR
deriving DecidableEq, Repr

/-- Attribute lookup on the `AgentState` enum class: `AgentState.<name>`
returns the member when it exists and raises `AttributeError` (modelled
as `none`) otherwise.  Mirrors the member list of `app/schema.py`. -/
def agentStateMember (attr : String) : Option AgentState :=
  if attr = "IDLE" then some .IDLE
  else if attr = "RUNNING" then some .RUNNING
  else if attr = "FINISHED" then some .FINISHED
  else if attr = "ERROR" then some .ERROR
  else none

/-- `class Function` of `app/schema.py`: the name/arguments blob of one
tool call. -/
structure Function where
  name : String
  arguments : String
deriving DecidableEq, Repr

/-- `class ToolCall` of `app/schema.py`. -/
structure ToolCall where
  id : String
  type : String
  function : Function
deriving DecidableEq, Repr

/-- `class Message` of `app/schema.py`.  All optional fields default to
`None` in the source; `Message` equality is pydantic field equality,
which the derived `DecidableEq` mirrors. -/
structure Message where
  role : Role
  content : Option String
  tool_calls : Option (List ToolCall)
  name : Option String
  tool_call_id : Option String
  base64_image : Option String
deriving DecidableEq, Repr

/-- `Message.user_message`. -/
def Message.user_message (content : String) : Message :=
  ⟨.user, some content, none, none, none, none⟩

/-- `Message.system_message`. -/
def Message.system_message (content : String) : Message :=
  ⟨.system, some content, none, none, none, none⟩

/-- `Message.assistant_message`. -/
def Message.assistant_message (content : Option String) : Message :=
  ⟨.assistant, content, none, none, none, none⟩

/-- `Message.tool_message`. -/
def Message.tool_message (content : String) (name : Option String)
    (tool_call_id : String) : Message :=
  ⟨.tool, some content, none, name, some tool_call_id, none⟩

/-- Python truthiness of an optional string (`None` and `""` are falsy). -/
def strTruthy : Option String → Bool
  | none => false
  | some s => !(s == "")

/-- Rendering of an `Optional[str]` inside an f-string (`None` prints as
the text `None`). -/
def pyStr : Option String → String
  | none => "None"
  | some s => s

/-- One entry of `Memory.summaries` (a dict with keys `start_idx`,
`end_idx`, `content`, `timestamp` in the source).  The wall-clock
`timestamp` (`time.time()`) is external input never inspected by the
code; it is modelled as a constant `0`. -/
structure Summary where
  start_idx : Nat
  end_idx : Nat
  content : String
  timestamp : Nat
deriving DecidableEq, Repr

/-- The default `compression_ratio` 0.5, written in `Rat` normal form so
that its numerator and denominator reduce in the kernel. -/
def ratioHalf : ℚ := ⟨1, 2, by decide, Nat.coprime_one_left 2⟩

/-- `class Memory` of `app/schema.py` with its configuration fields and
their defaults. -/
structure Memory where
  messages : List Message := []
  max_messages : Nat := 100
  summaries : List Summary := []
  compression_threshold : Nat := 20
  compression_ratio : ℚ := ratioHalf
  last_compression_size : Nat := 0
  auto_compress : Bool := true
  compress_system_messages : Bool := false
deriving DecidableEq, Repr

/-- `keep_count` as computed by `Memory.compress_memory`:
`int(len(messages) * compression_ratio)` clamped below by 10.  Python's
`int()` truncates toward zero; on the exact rational product
`n * ratio` that is `tdiv` of `n * ratio.num` by `ratio.den`, which
also evaluates inside the kernel. -/
def keepCount (n : Nat) (ratio : ℚ) : Nat :=
  max (((n : ℤ) * ratio.num).tdiv ratio.den).toNat 10

/-- `Memory._generate_summary`: the role label used for each line. -/
def roleDisplay (r : Role) : String :=
  if r = .user then "用户" else if r = .assistant then "助手" else r.value

/-- `Memory._generate_summary`: `msg.content[:50]` plus an ellipsis when
the content is longer than 50 characters. -/
def contentPreview (s : String) : String :=
  s.take 50 ++ (if s.length > 50 then "..." else "")

/-- `Memory._generate_summary`: concatenate one line per message that has
non-empty string content. -/
def generateSummary (messages : List Message) : String :=
  String.intercalate "\n" <| messages.filterMap fun msg =>
    match msg.content with
    | some s => if s = "" then none else some (roleDisplay msg.role ++ ": " ++ contentPreview s)
    | none => none

/-- The batch of messages that `Memory.compress_memory` would summarize
and drop: `messages[:-keep_count]` minus the retained system messages
(empty when the store is at or below its threshold). -/
def Memory.compressBatch (m : Memory) : List Message :=
  if m.messages.length ≤ m.compression_threshold then []
  else
    let keep := keepCount m.messages.length m.compression_ratio
    let pre := m.messages.take (m.messages.length - keep)
    if m.compress_system_messages then pre
    else pre.filter (fun msg => !(msg.role == .system))

/-- `Memory.compress_memory` (`app/schema.py`): no-op at or below the
threshold; otherwise keep the newest `keep_count` messages plus (by
default) the system messages of the compacted prefix, and append one
summary record covering the compacted batch. -/
def Memory.compress_memory (m : Memory) : Memory :=
  if m.messages.length ≤ m.compression_threshold then m
  else
    let keep := keepCount m.messages.length m.compression_ratio
    let pre := m.messages.take (m.messages.length - keep)
    let system_messages :=
      if m.compress_system_messages then []
      else pre.filter (fun msg => msg.role == .system)
    let to_compress :=
      if m.compress_system_messages then pre
      else pre.filter (fun msg => !(msg.role == .system))
    if to_compress.isEmpty then m
    else
      let new_messages := system_messages ++ m.messages.drop (m.messages.length - keep)
      { m with
        messages := new_messages
        summaries := m.summaries ++
          [⟨0, to_compress.length - 1, generateSummary to_compress, 0⟩]
        last_compression_size := new_messages.length }

/-- The summary record `compress_memory` appends when its batch is
non-empty. -/
def Memory.compressSummary (m : Memory) : Summary :=
  ⟨0, m.compressBatch.length - 1, generateSummary m.compressBatch, 0⟩

/-- `Memory.add_message`: append, auto-compress past the threshold, then
truncate to the newest `max_messages` entries. -/
def Memory.add_message (m : Memory) (message : Message) : Memory :=
  let m1 := { m with messages := m.messages ++ [message] }
  let m2 :=
    if m1.auto_compress = true ∧
        m1.messages.length > m1.compression_threshold ∧
        m1.messages.length > m1.last_compression_size + m1.compression_threshold / 2 then
      m1.compress_memory
    else m1
  if m2.messages.length > m2.max_messages then
    { m2 with messages := m2.messages.drop (m2.messages.length - m2.max_messages) }
  else m2

/-- `Memory.add_messages`: extend with a batch, then the same
auto-compression and truncation as `add_message`. -/
def Memory.add_messages (m : Memory) (messages : List Message) : Memory :=
  let m1 := { m with messages := m.messages ++ messages }
  let m2 :=
    if m1.auto_compress = true ∧
        m1.messages.length > m1.compression_threshold ∧
        m1.messages.length > m1.last_compression_size + m1.compression_threshold / 2 then
      m1.compress_memory
    else m1
  if m2.messages.length > m2.max_messages then
    { m2 with messages := m2.messages.drop (m2.messages.length - m2.max_messages) }
  else m2

/-- The synthetic system message a summary record becomes in
`get_memory_with_summaries`. -/
def summaryMessage (s : Summary) : Message :=
  Message.system_message
    ("历史对话摘要 (" ++ toString s.start_idx ++ "-" ++ toString s.end_idx ++ ")：\n" ++ s.content)

/-- First pass of `get_memory_with_summaries`: the ids of all tool calls
carried by assistant messages whose `tool_calls` list is truthy
(non-`None` and non-empty). -/
def collectToolCallIds : List Message → List String
  | [] => []
  | msg :: rest =>
    (match msg.role, msg.tool_calls with
     | .assistant, some tcs => if tcs.isEmpty then [] else tcs.map (·.id)
     | _, _ => []) ++ collectToolCallIds rest

/-- First pass of `get_memory_with_summaries`: the
`assistant_with_tool_calls` dict.  Iterating forward and overwriting on
duplicate ids means the last assistant message carrying a given id
wins, which this backward recursion mirrors. -/
def assistantWithToolCalls : List Message → String → Option Message
  | [], _ => none
  | msg :: rest, id =>
    match assistantWithToolCalls rest id with
    | some m => some m
    | none =>
      match msg.role, msg.tool_calls with
      | .assistant, some tcs =>
        if tcs.isEmpty then none
        else if (tcs.map (·.id)).contains id then some msg else none
      | _, _ => none

/-- The rewrite text used when a tool message has no matching tool call:
`f"工具 '{msg.name}' 执行结果: {msg.content}"`. -/
def toolFallbackText (msg : Message) : String :=
  "工具 '" ++ pyStr msg.name ++ "' 执行结果: " ++ pyStr msg.content

/-- One iteration of the second pass of `get_memory_with_summaries`. -/
def materializeStep (ids : List String) (dict : String → Option Message)
    (acc : List Message) (msg : Message) : List Message :=
  if msg.role = .tool ∧ strTruthy msg.tool_call_id = true then
    let id := msg.tool_call_id.getD ""
    if ids.contains id then
      let acc1 :=
        match dict id with
        | some am => if am ∈ acc then acc else acc ++ [am]
        | none => acc
      acc1 ++ [msg]
    else
      acc ++ [Message.assistant_message (some (toolFallbackText msg))]
  else
    acc ++ [msg]

/-- `Memory.get_memory_with_summaries`: summaries rendered first as
synthetic system messages, then the live messages with the tool-call /
tool-response pairing repaired. -/
def Memory.get_memory_with_summaries (m : Memory) : List Message :=
  m.messages.foldl
    (materializeStep (collectToolCallIds m.messages) (assistantWithToolCalls m.messages))
    (m.summaries.map summaryMessage)

/-! ## Self-evaluation (`app/evaluation/self_evaluation.py`) -/

/-- `class IssueSeverity`. -/
inductive IssueSeverity where
  | low
  | medium
  | high
  | critical
deriving DecidableEq, Repr

/-- The enum member whose value is the given string, if any (used for the
`severity not in [e.value for e in IssueSeverity]` check). -/
def severityOfString (s : String) : Option IssueSeverity :=
  if s = "low" then some .low
  else if s = "medium" then some .medium
  else if s = "high" then some .high
  else if s = "critical" then some .critical
  else none

/-- `class IssueDetail`. -/
structure IssueDetail where
  issue : String
  severity : IssueSeverity
  suggestion : String
deriving DecidableEq, Repr

/-- `class EvaluationResult`.  Scores are rationals (JSON numbers are
decimal literals).  The free-form `action_details` and `metadata` dicts
are opaque JSON blobs never inspected by the verified properties; only
the `parse_error` flag the parser itself writes into `metadata` is
kept. -/
structure EvaluationResult where
  score : ℚ
  issues : List IssueDetail
  action_needed : String
  metadata_parse_error : Bool
deriving DecidableEq, Repr

/-- Python 3 `round(q, 1)`: round to one decimal, ties to even. -/
def pyRound1 (q : ℚ) : ℚ :=
  let t := q * 10
  let n := ⌊t⌋
  let r :=
    if t - n < 1 / 2 then n
    else if 1 / 2 < t - n then n + 1
    else if Even n then n else n + 1
  (r : ℚ) / 10

/-- The `validate_score` pydantic validator: reject scores outside
`[0, 10]`, otherwise keep one decimal.  Runs whenever an
`EvaluationResult` is constructed; a failure is a raised `ValueError`. -/
def validate_score (value : ℚ) : Except String ℚ :=
  if 0 ≤ value ∧ value ≤ 10 then .ok (pyRound1 value)
  else .error "评分必须在0-10之间"

/-- One issue entry as read from the model's JSON (`issue_data` in the
source); each field may be absent. -/
structure RawIssue where
  issue : Option String
  severity : Option String
  suggestion : Option String
deriving DecidableEq, Repr

/-- The model's evaluation JSON object as read by
`_parse_evaluation_response` (`data` in the source); each field may be
absent. -/
structure RawEvaluation where
  score : Option ℚ
  issues : Option (List RawIssue)
  action_needed : Option String
deriving DecidableEq, Repr

/-- Outcome of extracting and `json.loads`-ing the response text:
either a well-shaped JSON object, or any parse/shape failure (no JSON
block, invalid JSON, not an object, ill-typed field — every path that
raises before the result is built). -/
inductive ParseOutcome where
  | parsed (data : RawEvaluation)
  | failure (err : String)
deriving DecidableEq, Repr

/-- Severity normalisation in `_parse_evaluation_response`: default
`"medium"`, and any string that is not an `IssueSeverity` value is
replaced by `"medium"`. -/
def normalizeSeverity (s : Option String) : IssueSeverity :=
  match s with
  | none => .medium
  | some v =>
    match severityOfString v with
    | some sev => sev
    | none => .medium

/-- The issue list built from the parsed JSON. -/
def buildIssues (data : RawEvaluation) : List IssueDetail :=
  match data.issues with
  | none => []
  | some l =>
    l.map fun i => ⟨i.issue.getD "未指定问题", normalizeSeverity i.severity, i.suggestion.getD ""⟩

/-- Constructing the `EvaluationResult` from parsed JSON inside the
`try` block; the score validator may raise. -/
def buildResult (data : RawEvaluation) : Except String EvaluationResult :=
  match validate_score (data.score.getD 5) with
  | .ok s => .ok ⟨s, buildIssues data, data.action_needed.getD "none", false⟩
  | .error e => .error e

/-- The synthetic result returned by the `except` handler of
`_parse_evaluation_response`.  (Its construction also runs
`validate_score 5`, which succeeds.) -/
def fallbackEvaluation (err : String) : EvaluationResult :=
  ⟨5, [⟨"无法解析评估结果: " ++ err, .high, "请检查评估系统"⟩], "none", true⟩

/-- `SelfEvaluator._parse_evaluation_response`: build the result from
the parsed JSON, and on any failure return the synthetic mid-score
result instead of raising. -/
def parse_evaluation_response (response : ParseOutcome) : EvaluationResult :=
  match response with
  | .failure e => fallbackEvaluation e
  | .parsed d =>
    match buildResult d with
    | .ok r => r
    | .error e => fallbackEvaluation e

/-- The response "cannot be parsed as the expected evaluation JSON":
either the JSON never materialised, or building the result from it
raised (e.g. an out-of-range score). -/
def parseFails (response : ParseOutcome) : Prop :=
  match response with
  | .failure _ => True
  | .parsed d => ∃ e, buildResult d = .error e

/-! ## Base agent (`app/agent/base.py`) -/

/-- A raised Python exception, as seen by `BaseAgent.run`:
`RuntimeError` for the not-idle precondition, any other unhandled
exception from the step body otherwise. -/
inductive PyExc where
  | runtimeError (msg : String)
  | exc (msg : String)
deriving DecidableEq, Repr

/-- The mutable state of a `BaseAgent` (`app/agent/base.py`).
`continuation_mode` is probed with `getattr(self, "continuation_mode",
False)`; it is `False` on the base class and a real field on `Manus`,
so it is modelled as a plain field. -/
structure Agent where
  state : AgentState
  current_step : Nat
  max_steps : Nat
  memory : Memory
  next_step_prompt : Option String
  continuation_mode : Bool
deriving DecidableEq, Repr

/-- The abstract `step` method implemented by subclasses.  It may mutate
the whole agent and either return a step-result string or raise; the
mutations survive a raise (Python mutates `self` in place). -/
def StepOracle : Type :=
  Agent → Agent × Except PyExc String

/-- `BaseAgent.update_memory` for a user message (the only role `run`
uses directly). -/
def Agent.update_memory_user (a : Agent) (content : String) : Agent :=
  { a with memory := a.memory.add_message (Message.user_message content) }

/-- `BaseAgent.update_memory` for a system message. -/
def Agent.update_memory_system (a : Agent) (content : String) : Agent :=
  { a with memory := a.memory.add_message (Message.system_message content) }

/-- `BaseAgent.is_stuck`: the last message has content identical to at
least `duplicate_threshold` (2) earlier assistant messages. -/
def Agent.is_stuck (a : Agent) : Bool :=
  if a.memory.messages.length < 2 then false
  else
    match a.memory.messages.getLast? with
    | none => false
    | some last =>
      if strTruthy last.content = false then false
      else
        let dups := (a.memory.messages.take (a.memory.messages.length - 1)).filter
          (fun msg => msg.role == .assistant && msg.content == last.content)
        decide (2 ≤ dups.length)

/-- `BaseAgent.handle_stuck_state`: prepend the change-strategy prompt. -/
def Agent.handle_stuck_state (a : Agent) : Agent :=
  let stuck := "        Observed duplicate responses. Consider new strategies and avoid repeating ineffective paths already attempted."
  { a with next_step_prompt := some (stuck ++ "\n" ++ pyStr a.next_step_prompt) }

/-- The in-loop compression check of `BaseAgent.run` (messages above the
threshold and at least 10 past the last compaction). -/
def Agent.loopCompress (a : Agent) : Agent :=
  if a.memory.messages.length > a.memory.compression_threshold ∧
      a.memory.messages.length > a.memory.last_compression_size + 10 then
    { a with memory := a.memory.compress_memory }
  else a

/-- The `while` loop of `BaseAgent.run`, bounded by `fuel` (the loop is
driven by the oracle's mutations; `fuel` caps how many iterations are
modelled, and running out behaves like a normal loop exit).  Returns the
mutated agent together with either the accumulated step results or the
exception that escaped the body. -/
def runLoop (step : StepOracle) : Nat → Agent → List String → Agent × Except PyExc (List String)
  | fuel, a, results =>
    if a.current_step < a.max_steps ∧ a.state ≠ .FINISHED then
      match fuel with
      | 0 => (a, .ok results)
      | fuel' + 1 =>
        let a1 := { a with current_step := a.current_step + 1 }
        let a2 := a1.loopCompress
        match step a2 with
        | (a3, .error e) => (a3, .error e)
        | (a3, .ok res) =>
          let a4 := if a3.is_stuck then a3.handle_stuck_state else a3
          runLoop step fuel' a4
            (results ++ ["Step " ++ toString a3.current_step ++ ": " ++ res])
    else (a, .ok results)

/-- The post-loop `current_step >= max_steps` handling of
`BaseAgent.run`: reset the counter and either continue (continuation
mode: inject a system note and compress) or force `FINISHED`. -/
def afterLoop (a : Agent) (results : List String) : Agent × List String :=
  if a.current_step ≥ a.max_steps then
    if a.continuation_mode then
      let contMsg := "已达到最大步数 " ++ toString a.max_steps ++ "，但任务尚未完成。任务将继续执行。"
      let a1 := { a with current_step := 0 }
      let a2 := a1.update_memory_system contMsg
      let a3 := { a2 with memory := a2.memory.compress_memory }
      (a3, results ++ [contMsg])
    else
      ({ a with current_step := 0, state := .FINISHED },
        results ++ ["Terminated: Reached max steps (" ++ toString a.max_steps ++
          "). Marking step as completed and forcing completion."])
  else (a, results)

/-- `"\n".join(results) if results else "No steps executed"`. -/
def joinResults (results : List String) : String :=
  if results.isEmpty then "No steps executed" else String.intercalate "\n" results

/-- The entry sequence of `BaseAgent.run` after the idle check: record
the (truthy) request as a user message, then pre-compress when the
message count is above the threshold. -/
def Agent.runStart (a : Agent) (request : Option String) : Agent :=
  let aR := if strTruthy request then a.update_memory_user (request.getD "") else a
  if aR.memory.messages.length > aR.memory.compression_threshold then
    { aR with memory := aR.memory.compress_memory }
  else aR

/-- The body of `state_context`: run the loop on the `RUNNING` agent; on
an exception set `ERROR` (the `except` clause), and in both cases
restore `previous_state` (the `finally` clause), then finish with the
post-loop handling on the success path. -/
def runInContext (step : StepOracle) (fuel : Nat) (a0 : Agent)
    (previous_state : AgentState) : Agent × Except PyExc String :=
  match runLoop step fuel a0 [] with
  | (a1, .error e) =>
    ({ { a1 with state := .ERROR } with state := previous_state }, .error e)
  | (a1, .ok results) =>
    match afterLoop a1 results with
    | (a2, results2) => ({ a2 with state := previous_state }, .ok (joinResults results2))

/-- `BaseAgent.run`: reject a non-idle agent with a `RuntimeError`,
record the request, pre-compress, then run the step loop inside
`state_context(RUNNING)` with `previous_state` captured at context
entry. -/
def Agent.run (step : StepOracle) (fuel : Nat) (a : Agent) (request : Option String) :
    Agent × Except PyExc String :=
  if a.state ≠ .IDLE then
    (a, .error (.runtimeError ("Cannot run agent from state: " ++ toString (repr a.state))))
  else
    runInContext step fuel { a.runStart request with state := .RUNNING }
      (a.runStart request).state

/-! ## Wait-for-input tool (`app/tool/wait_for_user_input.py`) -/

/-- The response text built by `WaitForUserInput.execute`. -/
def waitResponse (message : String) (options : Option (List String)) : String :=
  let response := "Waiting for user input: " ++ message
  match options with
  | some opts =>
    if opts.isEmpty then response
    else response ++ "\n\nOptional options:\n" ++
      String.intercalate "\n" (opts.map (fun o => "- " ++ o))
  | none => response

/-- `WaitForUserInput.execute`: when an agent is attached, set its state
to `AgentState.WAITING_FOR_USER_INPUT` — an attribute lookup on the
`AgentState` enum — then build and return the waiting message.  The
lookup raises `AttributeError` when the enum has no such member. -/
def WaitForUserInput.execute (agent : Option Agent) (message : String)
    (options : Option (List String)) : Except PyExc (Option Agent × String) :=
  match agent with
  | some ag =>
    match agentStateMember "WAITING_FOR_USER_INPUT" with
    | some st => .ok (some { ag with state := st }, waitResponse message options)
    | none => .error (.exc "AttributeError: WAITING_FOR_USER_INPUT")
  | none => .ok (none, waitResponse message options)

/-! ## Plan scheduler (`app/flow/planning.py`)

The flow stores plans inside its `PlanningTool`, whose own source is not
part of this tree; its storage and `mark_step` command are modelled from
the spec (§3, §4.4).  The executor agents the scheduler drives, and the
step prompts / result strings exchanged with them, are abstracted into a
per-pass oracle: what the scheduler inspects of a step result is only
whether it contains a continuation marker, whether the executor raised,
and whether the executor's state is `FINISHED` afterwards. -/

/-- `class PlanStepStatus` of `app/flow/planning.py`. -/
inductive PlanStepStatus where
  | not_started
  | in_progress
  | completed
  | blocked
deriving DecidableEq, Repr

/-- `PlanStepStatus.get_active_statuses()`. -/
def PlanStepStatus.get_active_statuses : List PlanStepStatus :=
  [.not_started, .in_progress]

/-- Modelled from the spec: one plan of the `PlanningTool` storage —
`steps` with an index-aligned `step_statuses` list (§3).  Titles and
per-step notes are not inspected by the verified properties. -/
structure Plan where
  steps : List String
  step_statuses : List PlanStepStatus
deriving DecidableEq, Repr

/-- Modelled from the spec: `PlanningTool` `create` gives every step the
status NotStarted. -/
def PlanningTool.create (steps : List String) : Plan :=
  ⟨steps, steps.map fun _ => .not_started⟩

/-- Modelled from the spec: the `PlanningTool` `mark_step` command sets
the status of an existing step; marking a step index the plan does not
have fails (an exception to the caller). -/
def PlanningTool.mark_step (p : Plan) (step_index : Nat) (status : PlanStepStatus) :
    Option Plan :=
  if step_index < p.step_statuses.length then
    some { p with step_statuses := p.step_statuses.set step_index status }
  else none

/-- `PlanningFlow._update_step_status`: try the planning tool first
(`apiOk` says whether that call succeeds), then fall back to direct
mutation of the stored statuses, padding with `not_started` up to the
index.  The plan itself always exists in this model, so the fallback
always succeeds. -/
def updateStepStatus (apiOk : Bool) (p : Plan) (step_index : Nat)
    (status : PlanStepStatus) : Plan × Bool :=
  match (if apiOk then PlanningTool.mark_step p step_index status else none) with
  | some p1 => (p1, true)
  | none =>
    let padded := p.step_statuses ++
      List.replicate (step_index + 1 - p.step_statuses.length) .not_started
    ({ p with step_statuses := padded.set step_index status }, true)

/-- `PlanningFlow._get_current_step_info`: pad the statuses to the step
count, return the first `in_progress` step unchanged if one exists
(resumption), otherwise flip the first active step to `in_progress`
(via `_update_step_status`), and signal completion with `none` when no
active step remains.  An `in_progress` status beyond the step list
raises an `IndexError` which the method's handler turns into `none`. -/
def getCurrentStepInfo (apiOk : Bool) (p : Plan) : Plan × Option Nat :=
  let statuses := p.step_statuses ++
    List.replicate (p.steps.length - p.step_statuses.length) .not_started
  let p1 := { p with step_statuses := statuses }
  match statuses.findIdx? (fun st => st == .in_progress) with
  | some i => if i < p1.steps.length then (p1, some i) else (p1, none)
  | none =>
    match (List.range p1.steps.length).find?
        (fun i => PlanStepStatus.get_active_statuses.contains (statuses.getD i .not_started)) with
    | some i => ((updateStepStatus apiOk p1 i .in_progress).1, some i)
    | none => (p1, none)

/-- What one executor drive looks like to the scheduler. -/
inductive ExecOutcome where
  | completed
  | incomplete
  | raised
deriving DecidableEq, Repr

/-- The oracle for one scheduler pass: whether the two status-update
tool calls succeed, whether the chosen executor has
`execute_planned_step`, how the drive ends (`completed` = no
continuation marker in the result, `incomplete` = a continuation marker
present, `raised` = the drive raised), and whether the executor's state
is `FINISHED` after the drive. -/
structure PassBehavior where
  selectApiOk : Bool
  markApiOk : Bool
  hasEPS : Bool
  outcome : ExecOutcome
  finished : Bool
deriving DecidableEq, Repr

/-- The scheduler loop state of `PlanningFlow.execute`: the stored plan,
the per-step `step_execution_count` map, presence of a
`step_intermediate_results` entry per step, a pass counter indexing the
oracle, and (ghost, for the statement of the drive bound) how many times
each step was actually driven. -/
structure FlowState where
  plan : Plan
  counts : Nat → Nat
  inter : Nat → Bool
  passNo : Nat
  drives : Nat → Nat

/-- How one pass of the `while True` loop of `PlanningFlow.execute`
ends. -/
inductive PassResult where
  | finalize (s : FlowState)
  | again (s : FlowState)
  | agentBreak (s : FlowState)
  | failed (s : FlowState)

/-- The state carried by a pass result. -/
def PassResult.state : PassResult → FlowState
  | .finalize s => s
  | .again s => s
  | .agentBreak s => s
  | .failed s => s

/-- Pointwise update of a `Nat`-indexed map. -/
def updAt (f : Nat → Nat) (i v : Nat) : Nat → Nat :=
  fun j => if j = i then v else f j

/-- Pointwise update of a `Nat`-indexed flag map. -/
def updFlag (f : Nat → Bool) (i : Nat) (v : Bool) : Nat → Bool :=
  fun j => if j = i then v else f j

/-- One pass of the scheduler loop of `PlanningFlow.execute` with
`max_executions_per_step = k`: select the current step; finalize when
none remains; force-complete and continue a step selected more than `k`
times; otherwise drive the executor — an `execute_planned_step` raise
aborts the whole flow, a continuation marker (with the execution budget
not yet reached) keeps the step in progress and records an intermediate
result, any other drive marks the step completed and clears the
intermediate result — and break out of the loop when the executor's
state is `FINISHED`. -/
def schedPass (k : Nat) (b : PassBehavior) (s : FlowState) : PassResult :=
  match getCurrentStepInfo b.selectApiOk s.plan with
  | (p1, none) =>
    .finalize { s with plan := p1, passNo := s.passNo + 1 }
  | (p1, some i) =>
    let cnt := s.counts i + 1
    let counts1 := updAt s.counts i cnt
    if cnt > k then
      .again { plan := (updateStepStatus b.markApiOk p1 i .completed).1,
               counts := counts1, inter := s.inter, passNo := s.passNo + 1,
               drives := s.drives }
    else
      if b.hasEPS then
        match b.outcome with
        | .raised =>
          .failed { plan := p1, counts := counts1, inter := s.inter,
                    passNo := s.passNo + 1, drives := updAt s.drives i (s.drives i + 1) }
        | o =>
          let s1 :=
            if o = .incomplete ∧ cnt < k then
              { plan := p1, counts := counts1, inter := updFlag s.inter i true,
                passNo := s.passNo + 1, drives := updAt s.drives i (s.drives i + 1) }
            else
              { plan := (updateStepStatus b.markApiOk p1 i .completed).1,
                counts := counts1, inter := updFlag s.inter i false,
                passNo := s.passNo + 1, drives := updAt s.drives i (s.drives i + 1) }
          if b.finished then .agentBreak s1 else .again s1
      else
        let s1 :=
          match b.outcome with
          | .incomplete =>
            { plan := p1, counts := counts1, inter := updFlag s.inter i true,
              passNo := s.passNo + 1, drives := updAt s.drives i (s.drives i + 1) }
          | .completed =>
            { plan := (updateStepStatus b.markApiOk p1 i .completed).1,
              counts := counts1, inter := updFlag s.inter i false,
              passNo := s.passNo + 1, drives := updAt s.drives i (s.drives i + 1) }
          | .raised =>
            { plan := p1, counts := counts1, inter := s.inter,
              passNo := s.passNo + 1, drives := updAt s.drives i (s.drives i + 1) }
        if b.finished then .agentBreak s1 else .again s1

/-- How `PlanningFlow.execute` ends: all steps done (finalized), the
executor requested termination, or an executor raise turned into the
`Execution failed` return. -/
inductive FlowOutcome where
  | finalized (s : FlowState)
  | agentFinished (s : FlowState)
  | errored (s : FlowState)

/-- The state carried by a flow outcome. -/
def FlowOutcome.state : FlowOutcome → FlowState
  | .finalized s => s
  | .agentFinished s => s
  | .errored s => s

/-- The `while True` loop of `PlanningFlow.execute`, with `fuel` bounding
the number of passes modelled (`none` = fuel ran out before the loop
ended). -/
def executeLoop (o : Nat → PassBehavior) (k : Nat) : Nat → FlowState → Option FlowOutcome
  | 0, _ => none
  | fuel + 1, s =>
    match schedPass k (o s.passNo) s with
    | .finalize s1 => some (.finalized s1)
    | .agentBreak s1 => some (.agentFinished s1)
    | .failed s1 => some (.errored s1)
    | .again s1 => executeLoop o k fuel s1

/-- `max_executions_per_step` as fixed in `PlanningFlow.execute`. -/
def max_executions_per_step : Nat := 3

/-- The scheduler state at the top of the loop, right after plan
creation: no execution counts, no intermediate results. -/
def initFlowState (p : Plan) : FlowState :=
  ⟨p, fun _ => 0, fun _ => false, 0, fun _ => 0⟩

/-- The status of step `i` (`not_started` when the status list is
shorter, matching the back-fill). -/
def statusAt (p : Plan) (i : Nat) : PlanStepStatus :=
  p.step_statuses.getD i .not_started

/-- The number of steps currently `in_progress`. -/
def inProgressCount (p : Plan) : Nat :=
  (p.step_statuses.filter (fun st => st == .in_progress)).length

/-! ## Concrete inputs and claim-level predicates -/

/-- The concrete failing input for C7: an agent mid-run. -/
def runningAgent : Agent := ⟨.RUNNING, 1, 10, {}, none, false⟩

/-- A step oracle that raises on its first invocation. -/
def stepRaise : StepOracle := fun ag => (ag, .error (.exc "boom"))

/-- An idle agent in its default configuration. -/
def idleAgent : Agent := ⟨.IDLE, 0, 10, {}, none, false⟩

/-- A default-configured memory holding 42 user messages (above the
compaction threshold of 20 even after one compaction). -/
def memC10 : Memory := { messages := List.replicate 42 (Message.user_message "x") }

/-- A default-configured memory holding 21 user messages (just above the
compaction threshold). -/
def memAboveThreshold : Memory :=
  { messages := List.replicate 21 (Message.user_message "x") }

/-- A memory whose `max_messages` cap is 5 (every other field at its
default, in particular `compression_threshold = 20`). -/
def memSmallCap : Memory := { max_messages := 5 }

/-- `memSmallCap` after six `add_message` calls. -/
def memSmallCapAfter : Memory :=
  (((((memSmallCap.add_message (Message.user_message "m0")).add_message
      (Message.user_message "m1")).add_message
      (Message.user_message "m2")).add_message
      (Message.user_message "m3")).add_message
      (Message.user_message "m4")).add_message
      (Message.user_message "m5")

/-- The spec-side retention bound of Compact:
`max(10, floor(N * retainFraction))`. -/
def compactBound (n : Nat) (ratio : ℚ) : Nat :=
  max 10 (Int.toNat ⌊(n : ℚ) * ratio⌋)

/-- The system messages `compress_memory` retains verbatim from the
compacted prefix (none when system messages are compressed too). -/
def retainedPrefix (m : Memory) : List Message :=
  if m.compress_system_messages then []
  else
    (m.messages.take
        (m.messages.length - keepCount m.messages.length m.compression_ratio)).filter
      (fun msg => msg.role == .system)

/-- The tail of newest messages `compress_memory` keeps
(`messages[-keep_count:]`). -/
def compressKeepTail (m : Memory) : List Message :=
  m.messages.drop (m.messages.length - keepCount m.messages.length m.compression_ratio)

/-- The number of system messages `compress_memory` retains verbatim
from the compacted prefix. -/
def retainedSystemCount (m : Memory) : Nat :=
  (retainedPrefix m).length

/-- An assistant message in `out` emits the tool-call id `id`. -/
def assistantEmits (am : Message) (id : String) : Prop :=
  am.role = .assistant ∧ ∃ tcs, am.tool_calls = some tcs ∧ ∃ tc ∈ tcs, tc.id = id

/-- The tool/response pairing invariant as claimed: every tool-role
message of the materialized output carries a `tool_call_id` matching a
tool call of an assistant message appearing earlier in the output. -/
def pairedToolMessagesOrig (out : List Message) : Prop :=
  ∀ i msg, out.get? i = some msg → msg.role = .tool →
    ∃ id j am, msg.tool_call_id = some id ∧ j < i ∧ out.get? j = some am ∧
      assistantEmits am id

/-- The repaired pairing invariant restricted to tool-role messages that
carry a truthy (non-`None`, non-empty) `tool_call_id`. -/
def pairedToolMessages (out : List Message) : Prop :=
  ∀ i msg id, out.get? i = some msg → msg.role = .tool →
    msg.tool_call_id = some id → id ≠ "" →
      ∃ j am, j < i ∧ out.get? j = some am ∧ assistantEmits am id

/-- A stored tool message with a missing `tool_call_id` (C1's
counterexample input). -/
def orphanToolMessage : Message := ⟨.tool, some "r", none, some "t", none, none⟩

/-- A memory whose only live message is an orphan tool message with no
`tool_call_id` at all. -/
def memOrphan : Memory := { messages := [orphanToolMessage] }

/-- An assistant message carrying one tool call with id `"call-1"`. -/
def assistantCallMessage : Message :=
  ⟨.assistant, some "c", some [⟨"call-1", "function", ⟨"search", "null"⟩⟩], none, none, none⟩

/-- The paired tool response for `assistantCallMessage`. -/
def toolRespMessage : Message := Message.tool_message "result" (some "search") "call-1"

/-- A memory holding a well-paired assistant/tool message pair. -/
def memPaired : Memory := { messages := [assistantCallMessage, toolRespMessage] }

/-- The claims' single-in-flight-step invariant: any two `in_progress`
indices coincide. -/
def AtMostOneInProgress (p : Plan) : Prop :=
  ∀ i j, statusAt p i = .in_progress → statusAt p j = .in_progress → i = j

/-- Loop invariant of `PlanningFlow.execute`: no step is selected more
than `k + 1` times, a step selected `k + 1` times is completed, and the
drive count never exceeds the selection count nor `k`. -/
def CountsInv (k : Nat) (s : FlowState) : Prop :=
  ∀ i, s.counts i ≤ k + 1 ∧ (s.counts i = k + 1 → statusAt s.plan i = .completed) ∧
    s.drives i ≤ s.counts i ∧ s.drives i ≤ k

/-- Termination measure of the scheduler loop: total remaining selection
budget over the plan's steps. -/
def flowMeasure (k : Nat) (s : FlowState) : Nat :=
  ∑ i in Finset.range s.plan.steps.length, (k + 1 - s.counts i)

/-- A two-step plan as created by the planning tool. -/
def planTwoSteps : Plan := PlanningTool.create ["analyze requirements", "execute task"]

/-- A pass behaviour where every call succeeds, the executor has
`execute_planned_step`, completes its step, and does not finish. -/
def passAllOk : PassBehavior := ⟨true, true, true, .completed, false⟩

/-- The oracle driving every pass with `passAllOk`. -/
def oracleAllOk : Nat → PassBehavior := fun _ => passAllOk

/-- A pass behaviour whose executor ends in `FINISHED` state. -/
def passFinish : PassBehavior := ⟨true, true, true, .completed, true⟩

/-- The oracle driving every pass with `passFinish`. -/
def oracleFinish : Nat → PassBehavior := fun _ => passFinish

/-- A flow state whose only step has already been selected five times. -/
def sOverBudget : FlowState :=
  ⟨PlanningTool.create ["analyze requirements"], fun _ => 5, fun _ => false, 0, fun _ => 0⟩

/-- A plan resumed mid-execution: step 1 is in progress. -/
def planResume : Plan :=
  ⟨["analyze requirements", "execute task"], [.completed, .in_progress]⟩

/-! ## Helper lemmas -/

theorem pyRound1_spec (v : ℚ) (h0 : 0 ≤ v) (h10 : v ≤ 10) :
    0 ≤ pyRound1 v ∧ pyRound1 v ≤ 10 ∧ ∃ n : ℤ, pyRound1 v = (n : ℚ) / 10 := by
  unfold pyRound1
  have ht0 : (0 : ℚ) ≤ v * 10 := by linarith
  have ht100 : v * 10 ≤ 100 := by linarith
  have hfl : (0 : ℤ) ≤ ⌊v * 10⌋ := Int.floor_nonneg.2 ht0
  have hfl' : (⌊v * 10⌋ : ℚ) ≤ v * 10 := Int.floor_le _
  by_cases hc1 : v * 10 - ⌊v * 10⌋ < 1 / 2
  · simp only [hc1, if_true]
    refine ⟨?_, ?_, ⟨⌊v * 10⌋, rfl⟩⟩
    · positivity
    · have : (⌊v * 10⌋ : ℚ) ≤ 100 := by linarith
      linarith
  · have hhalf : (1 : ℚ) / 2 ≤ v * 10 - ⌊v * 10⌋ := le_of_not_lt hc1
    have hle99 : (⌊v * 10⌋ : ℚ) < 100 := by linarith
    have hle99' : ⌊v * 10⌋ ≤ 99 := by
      have : ⌊v * 10⌋ < (100 : ℤ) := by exact_mod_cast hle99
      omega
    have hcast : ((⌊v * 10⌋ + 1 : ℤ) : ℚ) ≤ 100 := by
      have : (⌊v * 10⌋ : ℚ) ≤ 99 := by exact_mod_cast hle99'
      push_cast
      linarith
    by_cases hc2 : 1 / 2 < v * 10 - ⌊v * 10⌋
    · simp only [hc1, if_false, hc2, if_true]
      refine ⟨?_, ?_, ⟨⌊v * 10⌋ + 1, rfl⟩⟩
      · positivity
      · rw [div_le_iff₀ (by norm_num : (0:ℚ) < 10)]
        linarith
    · simp only [hc1, if_false, hc2]
      by_cases hev : Even ⌊v * 10⌋
      · simp only [hev, if_true]
        refine ⟨?_, ?_, ⟨⌊v * 10⌋, rfl⟩⟩
        · positivity
        · rw [div_le_iff₀ (by norm_num : (0:ℚ) < 10)]
          have : (⌊v * 10⌋ : ℚ) ≤ 100 := by linarith
          linarith
      · simp only [hev, if_false]
        refine ⟨?_, ?_, ⟨⌊v * 10⌋ + 1, rfl⟩⟩
        · positivity
        · rw [div_le_iff₀ (by norm_num : (0:ℚ) < 10)]
          linarith

theorem fallbackEvaluation_shape (e : String) :
    (fallbackEvaluation e).score = 5 ∧
      (fallbackEvaluation e).issues.map (fun i => i.severity) = [.high] ∧
      0 ≤ (fallbackEvaluation e).score ∧ (fallbackEvaluation e).score ≤ 10 ∧
      ∃ n : ℤ, (fallbackEvaluation e).score = (n : ℚ) / 10 :=
  ⟨rfl, rfl, by norm_num [fallbackEvaluation], by norm_num [fallbackEvaluation],
    ⟨50, by norm_num [fallbackEvaluation]⟩⟩

/-! ## C7 -/

/-- C7: the claim says executing the wait-for-input tool on behalf of a
Running agent succeeds and moves the agent into a `WaitingForInput`
member of `AgentState`.  In the source, `AgentState`
(`app/schema.py`) has only `IDLE`, `RUNNING`, `FINISHED` and `ERROR`,
yet `WaitForUserInput.execute` (and `app/web/app.py`) reference
`AgentState.WAITING_FOR_USER_INPUT`; the attribute lookup therefore
raises `AttributeError` and the tool call fails without any state
transition.  This theorem evaluates the modelled tool at the failing
input. -/
theorem C7_wait_for_input_attribute_error :
    WaitForUserInput.execute (some runningAgent) "Please confirm the option to use" none
      = .error (.exc "AttributeError: WAITING_FOR_USER_INPUT") := rfl

/-! ## C5 -/

/-- C5: `Evaluate` never raises (the modelled
`parse_evaluation_response` is total); whenever the model response
cannot be parsed as the expected evaluation JSON — no JSON object, or a
result whose construction fails validation — the returned
`EvaluationResult` has score exactly 5.0 and exactly one issue, of
severity `high`; and every returned result has a score in `[0, 10]`
that is a whole number of tenths. -/
theorem C5_evaluate_parse_fallback (response : ParseOutcome) :
    (parseFails response →
      (parse_evaluation_response response).score = 5 ∧
        (parse_evaluation_response response).issues.map (fun i => i.severity) = [.high]) ∧
      (0 ≤ (parse_evaluation_response response).score ∧
        (parse_evaluation_response response).score ≤ 10 ∧
        ∃ n : ℤ, (parse_evaluation_response response).score = (n : ℚ) / 10) := by
  cases response with
  | failure e =>
    obtain ⟨h1, h2, h3, h4, h5⟩ := fallbackEvaluation_shape e
    exact ⟨fun _ => ⟨h1, h2⟩, h3, h4, h5⟩
  | parsed d =>
    cases hb : buildResult d with
    | ok r =>
      have hscore : ∃ v, validate_score (d.score.getD 5) = .ok v ∧ r.score = v := by
        unfold buildResult at hb
        cases hv : validate_score (d.score.getD 5) with
        | ok s =>
          rw [hv] at hb
          simp only [Except.ok.injEq] at hb
          exact ⟨s, rfl, by rw [← hb]⟩
        | error e => rw [hv] at hb; simp at hb
      obtain ⟨v, hv, hrv⟩ := hscore
      have hcond : 0 ≤ d.score.getD 5 ∧ d.score.getD 5 ≤ 10 ∧ v = pyRound1 (d.score.getD 5) := by
        unfold validate_score at hv
        by_cases hc : 0 ≤ d.score.getD 5 ∧ d.score.getD 5 ≤ 10
        · rw [if_pos hc] at hv
          simp only [Except.ok.injEq] at hv
          exact ⟨hc.1, hc.2, hv.symm⟩
        · rw [if_neg hc] at hv
          simp at hv
      obtain ⟨hge, hle, hvv⟩ := hcond
      obtain ⟨p1, p2, p3⟩ := pyRound1_spec (d.score.getD 5) hge hle
      have hres : parse_evaluation_response (.parsed d) = r := by
        simp only [parse_evaluation_response, hb]
      constructor
      · intro hf
        obtain ⟨e, he⟩ := hf
        rw [hb] at he
        simp at he
      · rw [hres, hrv, hvv]
        exact ⟨p1, p2, p3⟩
    | error e =>
      have hres : parse_evaluation_response (.parsed d) = fallbackEvaluation e := by
        simp only [parse_evaluation_response, hb]
      obtain ⟨h1, h2, h3, h4, h5⟩ := fallbackEvaluation_shape e
      rw [hres]
      exact ⟨fun _ => ⟨h1, h2⟩, h3, h4, h5⟩

/-- C5 witness: the fallback shape at a concrete unparsable response. -/
theorem C5_evaluate_parse_fallback_witness :
    (parse_evaluation_response (.failure "Expecting value")).score = 5 ∧
      ((parse_evaluation_response (.failure "Expecting value")).issues.map
        (fun i => i.severity)) = [.high] :=
  (C5_evaluate_parse_fallback (.failure "Expecting value")).1 trivial

/-! ## C6 -/

/-- C6 amended: when an unhandled exception escapes the step body during
the Running phase, the public `run` re-raises it (the `.error` result),
but afterwards the agent's state is the pre-run state (`IDLE`), not
`ERROR`: `state_context`'s `except` clause does set `ERROR`, and its
`finally` clause then restores `previous_state` on the way out. -/
theorem runStart_state (a : Agent) (request : Option String) :
    (a.runStart request).state = a.state := by
  unfold Agent.runStart Agent.update_memory_user
  dsimp only
  split <;> split <;> rfl

theorem C6_run_exception_reverts_state (step : StepOracle) (fuel : Nat) (a : Agent)
    (request : Option String) (e : PyExc) (hidle : a.state = .IDLE)
    (herr : (a.run step fuel request).2 = .error e) :
    (a.run step fuel request).2 = .error e ∧ (a.run step fuel request).1.state = .IDLE := by
  refine ⟨herr, ?_⟩
  unfold Agent.run
  rw [if_neg (by simp [hidle])]
  unfold runInContext
  split
  · dsimp only
    rw [runStart_state, hidle]
  · split
    dsimp only
    rw [runStart_state, hidle]

/-- C6 counterexample: with a step body that raises immediately, `run`
re-raises, but the final agent state is the pre-run `IDLE`, not `ERROR`
as the claim states. -/
theorem C6_counterexample :
    (idleAgent.run stepRaise 5 none).2 = .error (.exc "boom") ∧
      ¬ (idleAgent.run stepRaise 5 none).1.state = .ERROR := by
  exact ⟨rfl, by decide⟩

/-- C6 witness: the amended theorem applied at the raising oracle. -/
theorem C6_run_exception_reverts_state_witness :
    (idleAgent.run stepRaise 5 none).2 = .error (.exc "boom") ∧
      (idleAgent.run stepRaise 5 none).1.state = .IDLE :=
  C6_run_exception_reverts_state stepRaise 5 idleAgent none (.exc "boom") rfl rfl

/-! ## C10 -/

theorem compress_noop (m : Memory)
    (h : m.messages.length ≤ m.compression_threshold) : m.compress_memory = m := by
  unfold Memory.compress_memory
  rw [if_pos h]

theorem compress_memory_threshold (m : Memory) :
    (m.compress_memory).compression_threshold = m.compression_threshold := by
  unfold Memory.compress_memory
  split
  · rfl
  · split <;> (dsimp only; split <;> rfl)

/-- C10 counterexample: on a default-configured store holding 42
messages, the first Compact keeps 21 messages — still above the
threshold of 20 — so an immediately following Compact compresses again
and changes both the messages and the summaries. -/
theorem C10_counterexample :
    Memory.compress_memory (Memory.compress_memory memC10) ≠ Memory.compress_memory memC10 := by
  decide

/-- C10 amended: Compact is a no-op whenever the live message count is
at or below `compression_threshold`; consequently re-invoking Compact
changes nothing whenever the first Compact left the live count at or
below the threshold.  (When a Compact leaves the count above the
threshold, a second Compact compresses further.) -/
theorem C10_compact_noop_below_threshold (m : Memory) :
    (m.messages.length ≤ m.compression_threshold → m.compress_memory = m) ∧
      ((m.compress_memory).messages.length ≤ m.compression_threshold →
        m.compress_memory.compress_memory = m.compress_memory) := by
  refine ⟨compress_noop m, fun h => ?_⟩
  apply compress_noop
  rwa [compress_memory_threshold]

/-- C10 witness: both parts at the empty default store. -/
theorem C10_compact_noop_below_threshold_witness :
    Memory.compress_memory {} = ({} : Memory) ∧
      Memory.compress_memory (Memory.compress_memory {}) = Memory.compress_memory ({} : Memory) :=
  ⟨(C10_compact_noop_below_threshold {}).1 (by decide),
    (C10_compact_noop_below_threshold {}).2 (by decide)⟩

/-! ## Compaction case analysis -/

theorem compressBatch_below (m : Memory)
    (h : m.messages.length ≤ m.compression_threshold) : m.compressBatch = [] := by
  unfold Memory.compressBatch
  rw [if_pos h]

theorem compressBatch_above (m : Memory)
    (h : ¬ m.messages.length ≤ m.compression_threshold) :
    m.compressBatch =
      (if m.compress_system_messages then
        m.messages.take (m.messages.length - keepCount m.messages.length m.compression_ratio)
      else
        (m.messages.take
            (m.messages.length - keepCount m.messages.length m.compression_ratio)).filter
          (fun msg => !(msg.role == .system))) := by
  unfold Memory.compressBatch
  rw [if_neg h]

theorem compress_memory_of_batch_empty (m : Memory)
    (hemp : m.compressBatch = []) : m.compress_memory = m := by
  by_cases hth : m.messages.length ≤ m.compression_threshold
  · exact compress_noop m hth
  · rw [compressBatch_above m hth] at hemp
    unfold Memory.compress_memory
    rw [if_neg hth]
    dsimp only
    by_cases hcsm : m.compress_system_messages = true
    · simp only [hcsm, if_true] at hemp ⊢
      rw [if_pos (by simp [List.isEmpty_iff, hemp])]
    · have hf : m.compress_system_messages = false := by simpa using hcsm
      simp only [hf, Bool.false_eq_true, if_false] at hemp ⊢
      rw [if_pos (by simp [List.isEmpty_iff, hemp])]

theorem compress_memory_of_batch_ne (m : Memory)
    (hth : ¬ m.messages.length ≤ m.compression_threshold)
    (hne : m.compressBatch ≠ []) :
    m.compress_memory =
      { m with
        messages := retainedPrefix m ++ compressKeepTail m
        summaries := m.summaries ++ [m.compressSummary]
        last_compression_size := (retainedPrefix m ++ compressKeepTail m).length } := by
  rw [compressBatch_above m hth] at hne
  unfold Memory.compress_memory Memory.compressSummary Memory.compressBatch
  unfold retainedPrefix compressKeepTail
  rw [if_neg hth, if_neg hth]
  dsimp only
  by_cases hcsm : m.compress_system_messages = true
  · simp only [hcsm, if_true] at hne ⊢
    rw [if_neg (by simp [List.isEmpty_iff, hne])]
  · have hf : m.compress_system_messages = false := by simpa using hcsm
    simp only [hf, Bool.false_eq_true, if_false] at hne ⊢
    rw [if_neg (by simp [List.isEmpty_iff, hne])]

theorem filter_not_length {α : Type} (p : α → Bool) (l : List α) :
    (l.filter p).length + (l.filter (fun x => !(p x))).length = l.length := by
  induction l with
  | nil => rfl
  | cons a t ih =>
    by_cases h : p a = true <;> simp [List.filter_cons, h] <;> omega

theorem keepCount_eq_compactBound (n : Nat) (ratio : ℚ) :
    keepCount n ratio = compactBound n ratio := by
  unfold keepCount compactBound
  have hden : (0 : ℤ) < (ratio.den : ℤ) := by exact_mod_cast ratio.den_pos
  have hfloor : ⌊(n : ℚ) * ratio⌋ = ((n : ℤ) * ratio.num) / (ratio.den : ℤ) := by
    have hprod : (n : ℚ) * ratio = (((n : ℤ) * ratio.num : ℤ) : ℚ) / ((ratio.den : ℕ) : ℚ) := by
      conv_lhs => rw [← Rat.num_div_den ratio]
      push_cast
      ring
    rw [hprod, Rat.floor_intCast_div_natCast]
  rcases le_or_lt 0 ((n : ℤ) * ratio.num) with hp | hp
  · rw [hfloor, ← Int.tdiv_eq_ediv hp (le_of_lt hden), Nat.max_comm]
  · have h1 : ((n : ℤ) * ratio.num).tdiv (ratio.den : ℤ) ≤ 0 := by
      have h := Int.tdiv_nonneg (by omega : (0 : ℤ) ≤ -((n : ℤ) * ratio.num)) (le_of_lt hden)
      rw [Int.neg_tdiv] at h
      omega
    have h2 : ⌊(n : ℚ) * ratio⌋ ≤ 0 := by
      rw [hfloor]
      have := Int.ediv_neg' hp hden
      omega
    rw [Int.toNat_of_nonpos h1, Int.toNat_of_nonpos h2]
    decide

/-! ## C2 -/

/-- C2: for every memory whose live count `N` exceeds
`compression_threshold`, one `compress_memory` call leaves at most
`max(10, floor(N * compression_ratio))` plus the retained system
messages; at or below the threshold the call changes nothing.
(`compactBound` is the spec-side bound; `keepCount_eq_compactBound`
relates it to the code's `keep_count`.) -/
theorem C2_compact_bound (m : Memory) :
    (m.compression_threshold < m.messages.length →
      (m.compress_memory).messages.length ≤
        compactBound m.messages.length m.compression_ratio + retainedSystemCount m) ∧
      (m.messages.length ≤ m.compression_threshold → m.compress_memory = m) := by
  refine ⟨?_, compress_noop m⟩
  intro h
  have hth : ¬ m.messages.length ≤ m.compression_threshold := Nat.not_le.2 h
  rw [← keepCount_eq_compactBound]
  have htake : (m.messages.take
      (m.messages.length - keepCount m.messages.length m.compression_ratio)).length =
      min (m.messages.length - keepCount m.messages.length m.compression_ratio)
        m.messages.length := List.length_take _ _
  by_cases hbe : m.compressBatch = []
  · rw [compress_memory_of_batch_empty m hbe]
    rw [compressBatch_above m hth] at hbe
    unfold retainedSystemCount retainedPrefix
    by_cases hcsm : m.compress_system_messages = true
    · simp only [hcsm, if_true] at hbe ⊢
      have : (m.messages.take
          (m.messages.length - keepCount m.messages.length m.compression_ratio)).length = 0 := by
        rw [hbe]; rfl
      simp only [List.length_nil]
      omega
    · have hf : m.compress_system_messages = false := by simpa using hcsm
      simp only [hf, Bool.false_eq_true, if_false] at hbe ⊢
      have hfl := filter_not_length (fun msg => msg.role == Role.system)
        (m.messages.take (m.messages.length - keepCount m.messages.length m.compression_ratio))
      have : ((m.messages.take
          (m.messages.length - keepCount m.messages.length m.compression_ratio)).filter
            (fun msg => !(msg.role == Role.system))).length = 0 := by
        rw [hbe]; rfl
      omega
  · rw [compress_memory_of_batch_ne m hth hbe]
    have hdrop : (compressKeepTail m).length =
        m.messages.length -
          (m.messages.length - keepCount m.messages.length m.compression_ratio) :=
      List.length_drop _ _
    simp only [List.length_append]
    unfold retainedSystemCount
    omega

/-- C2 witness: the bound at a 21-message default store (the compaction
fires), and the no-op at the empty store. -/
theorem C2_compact_bound_witness :
    ((memAboveThreshold.compress_memory).messages.length ≤
        compactBound memAboveThreshold.messages.length memAboveThreshold.compression_ratio +
          retainedSystemCount memAboveThreshold) ∧
      Memory.compress_memory {} = ({} : Memory) :=
  ⟨(C2_compact_bound memAboveThreshold).1 (by decide), (C2_compact_bound {}).2 (by decide)⟩

/-! ## C9 -/

/-- C9 counterexample: with `max_messages = 5`, six `add_message` calls
drop the first stored message from the live list without creating any
summary record at all — the `max_messages` truncation in
`Memory.add_message` discards messages unsummarized. -/
theorem C9_counterexample :
    Message.user_message "m0" ∈ (memSmallCap.add_message (Message.user_message "m0")).messages ∧
      Message.user_message "m0" ∉ memSmallCapAfter.messages ∧
      memSmallCapAfter.summaries = [] := by
  decide

/-- C9 amended: `compress_memory` itself never drops a message without
representation — every live message either survives into the compacted
store or belongs to the summarized batch, and whenever the batch is
non-empty exactly one summary record generated from it is appended.
(`add_message` / `add_messages`, however, additionally truncate to the
newest `max_messages` entries, and messages dropped by that truncation
are not represented anywhere — the counterexample.) -/
theorem C9_compact_represents (m : Memory) :
    (∀ msg ∈ m.messages, msg ∈ (m.compress_memory).messages ∨ msg ∈ m.compressBatch) ∧
      (m.compressBatch ≠ [] →
        (m.compress_memory).summaries = m.summaries ++ [m.compressSummary]) := by
  by_cases hth : m.messages.length ≤ m.compression_threshold
  · refine ⟨fun msg hm => ?_, fun hne => absurd (compressBatch_below m hth) hne⟩
    rw [compress_noop m hth]
    exact Or.inl hm
  · by_cases hbe : m.compressBatch = []
    · refine ⟨fun msg hm => ?_, fun hne => absurd hbe hne⟩
      rw [compress_memory_of_batch_empty m hbe]
      exact Or.inl hm
    · refine ⟨fun msg hm => ?_, fun _ => ?_⟩
      · rw [compress_memory_of_batch_ne m hth hbe, compressBatch_above m hth]
        have hsplit := List.take_append_drop
          (m.messages.length - keepCount m.messages.length m.compression_ratio) m.messages
        rw [← hsplit] at hm
        rcases List.mem_append.mp hm with htk | hdr
        · by_cases hcsm : m.compress_system_messages = true
          · simp only [hcsm, if_true]
            exact Or.inr htk
          · have hf : m.compress_system_messages = false := by simpa using hcsm
            simp only [hf, Bool.false_eq_true, if_false]
            by_cases hrole : (msg.role == Role.system) = true
            · refine Or.inl (List.mem_append.mpr (Or.inl ?_))
              unfold retainedPrefix
              simp only [hf, Bool.false_eq_true, if_false]
              exact List.mem_filter.mpr ⟨htk, hrole⟩
            · exact Or.inr (List.mem_filter.mpr ⟨htk, by simp [hrole]⟩)
        · refine Or.inl (List.mem_append.mpr (Or.inr ?_))
          unfold compressKeepTail
          exact hdr
      · rw [compress_memory_of_batch_ne m hth hbe]

/-- C9 witness: the amended theorem at the 21-message store, applied to
one of its stored messages, together with its summary-record part. -/
theorem C9_compact_represents_witness :
    (Message.user_message "x" ∈ (memAboveThreshold.compress_memory).messages ∨
        Message.user_message "x" ∈ memAboveThreshold.compressBatch) ∧
      (memAboveThreshold.compress_memory).summaries =
        memAboveThreshold.summaries ++ [memAboveThreshold.compressSummary] :=
  ⟨(C9_compact_represents memAboveThreshold).1 (Message.user_message "x") (by decide),
    (C9_compact_represents memAboveThreshold).2 (by decide)⟩

/-! ## C1 -/

theorem assistantWithToolCalls_emits (msgs : List Message) :
    ∀ (id : String) (am : Message),
      assistantWithToolCalls msgs id = some am → assistantEmits am id := by
  induction msgs with
  | nil => intro id am h; simp [assistantWithToolCalls] at h
  | cons msg rest ih =>
    intro id am h
    unfold assistantWithToolCalls at h
    cases hr : assistantWithToolCalls rest id with
    | some m =>
      rw [hr] at h
      simp only [Option.some.injEq] at h
      exact h ▸ ih id m hr
    | none =>
      rw [hr] at h
      cases hrole : msg.role <;> rw [hrole] at h <;>
        cases htc : msg.tool_calls <;> rw [htc] at h <;>
        (try exact Option.noConfusion h)
      rename_i tcs
      · dsimp only at h
        by_cases hemp : tcs.isEmpty = true
        · rw [if_pos hemp] at h; cases h
        · rw [if_neg hemp] at h
          by_cases hcont : (tcs.map (fun tc => tc.id)).contains id = true
          · rw [if_pos hcont] at h
            obtain rfl : msg = am := by injection h
            obtain ⟨tc, htcm, htcid⟩ := List.mem_map.mp (List.elem_iff.mp hcont)
            exact ⟨hrole, tcs, htc, tc, htcm, htcid⟩
          · rw [if_neg hcont] at h; cases h

theorem collect_mem_emits (msgs : List Message) (id : String)
    (h : (collectToolCallIds msgs).contains id = true) :
    ∃ am, assistantWithToolCalls msgs id = some am ∧ assistantEmits am id := by
  have hmem : id ∈ collectToolCallIds msgs := List.elem_iff.mp h
  clear h
  induction msgs with
  | nil => simp [collectToolCallIds] at hmem
  | cons msg rest ih =>
    unfold collectToolCallIds at hmem
    rw [List.mem_append] at hmem
    unfold assistantWithToolCalls
    cases hr : assistantWithToolCalls rest id with
    | some m =>
      exact ⟨m, rfl, assistantWithToolCalls_emits rest id m hr⟩
    | none =>
      dsimp only
      rcases hmem with hfront | hrest
      · cases hrole : msg.role <;> rw [hrole] at hfront <;>
          cases htc : msg.tool_calls <;> rw [htc] at hfront <;>
          (try exact absurd hfront (List.not_mem_nil _))
        rename_i tcs
        · dsimp only at hfront ⊢
          by_cases hemp : tcs.isEmpty = true
          · rw [if_pos hemp] at hfront; cases hfront
          · rw [if_neg hemp] at hfront ⊢
            have hcont : (tcs.map (fun tc => tc.id)).contains id = true :=
              List.elem_iff.mpr hfront
            rw [if_pos hcont]
            obtain ⟨tc, htcm, htcid⟩ := List.mem_map.mp hfront
            exact ⟨msg, rfl, hrole, tcs, htc, tc, htcm, htcid⟩
      · obtain ⟨m, hm, _⟩ := ih hrest
        rw [hr] at hm
        cases hm

theorem paired_of_no_tool (out : List Message)
    (h : ∀ msg ∈ out, ¬ msg.role = .tool) : pairedToolMessages out := by
  intro i msg id hget hrole hid hne
  exact absurd hrole (h msg (List.get?_mem hget))

theorem paired_append_one (out : List Message) (x : Message)
    (h : pairedToolMessages out)
    (hx : ∀ id, x.role = .tool → x.tool_call_id = some id → id ≠ "" →
      ∃ j am, j < out.length ∧ out.get? j = some am ∧ assistantEmits am id) :
    pairedToolMessages (out ++ [x]) := by
  intro i msg id hget hrole hid hne
  rcases Nat.lt_trichotomy i out.length with hlt | heq | hgt
  · rw [List.get?_append hlt] at hget
    obtain ⟨j, am, hj, hjget, hem⟩ := h i msg id hget hrole hid hne
    exact ⟨j, am, hj, by rw [List.get?_append (lt_trans hj hlt)]; exact hjget, hem⟩
  · subst heq
    rw [List.get?_concat_length] at hget
    obtain rfl : x = msg := by injection hget
    obtain ⟨j, am, hj, hjget, hem⟩ := hx id hrole hid hne
    exact ⟨j, am, hj, by rw [List.get?_append hj]; exact hjget, hem⟩
  · have hnone : (out ++ [x]).get? i = none := by
      apply List.get?_eq_none.mpr
      simp only [List.length_append, List.length_singleton]
      omega
    rw [hnone] at hget
    cases hget

theorem materializeStep_preserves (ids : List String) (dict : String → Option Message)
    (hd : ∀ id, ids.contains id = true → ∃ am, dict id = some am ∧ assistantEmits am id)
    (acc : List Message) (msg : Message) (h : pairedToolMessages acc) :
    pairedToolMessages (materializeStep ids dict acc msg) := by
  unfold materializeStep
  split
  case isTrue hcond =>
    obtain ⟨hrole, htr⟩ := hcond
    by_cases hin : ids.contains (msg.tool_call_id.getD "") = true
    · rw [if_pos hin]
      obtain ⟨am, ham, hem⟩ := hd _ hin
      rw [ham]
      dsimp only
      by_cases hmem : am ∈ acc
      · rw [if_pos hmem]
        apply paired_append_one _ _ h
        intro id _ hid hne
        obtain ⟨j, hj⟩ := List.get?_of_mem hmem
        have hjlt : j < acc.length := by
          by_contra hcon
          rw [List.get?_eq_none.mpr (Nat.le_of_not_lt hcon)] at hj
          cases hj
        have hgd : msg.tool_call_id.getD "" = id := by rw [hid]; rfl
        exact ⟨j, am, hjlt, hj, hgd ▸ hem⟩
      · rw [if_neg hmem]
        apply paired_append_one
        · apply paired_append_one _ _ h
          intro id hrole2 _ _
          exact absurd hrole2 (by rw [hem.1]; intro hcon; cases hcon)
        · intro id _ hid _
          have hgd : msg.tool_call_id.getD "" = id := by rw [hid]; rfl
          refine ⟨acc.length, am, ?_, List.get?_concat_length acc am, hgd ▸ hem⟩
          simp only [List.length_append, List.length_singleton]
          omega
    · rw [if_neg hin]
      apply paired_append_one _ _ h
      intro id hrole2 _ _
      exact absurd hrole2 (by intro hcon; cases hcon)
  case isFalse hcond =>
    apply paired_append_one _ _ h
    intro id hrole2 hid hne
    exfalso
    apply hcond
    refine ⟨hrole2, ?_⟩
    rw [hid]
    unfold strTruthy
    simp [hne]

theorem paired_foldl (ids : List String) (dict : String → Option Message)
    (hd : ∀ id, ids.contains id = true → ∃ am, dict id = some am ∧ assistantEmits am id)
    (msgs : List Message) :
    ∀ acc : List Message, pairedToolMessages acc →
      pairedToolMessages (msgs.foldl (materializeStep ids dict) acc) := by
  induction msgs with
  | nil => intro acc h; exact h
  | cons x rest ih =>
    intro acc h
    exact ih _ (materializeStep_preserves ids dict hd acc x h)

/-- C1 counterexample: a stored tool message whose `tool_call_id` is
`None` is passed through `get_memory_with_summaries` unchanged (the
repair only looks at tool messages with a truthy `tool_call_id`), so
the output contains a tool-role message matching no assistant tool
call: the claimed pairing invariant fails. -/
theorem C1_counterexample :
    ¬ pairedToolMessagesOrig memOrphan.get_memory_with_summaries := by
  intro h
  obtain ⟨id, j, am, hid, hj, _, _⟩ := h 0 orphanToolMessage rfl rfl
  exact absurd hj (Nat.not_lt_zero j)

/-- C1 amended: in the output of `get_memory_with_summaries`, every
tool-role message carrying a truthy (non-`None`, non-empty)
`tool_call_id` has it equal to a ToolCall id of an assistant message
appearing earlier in that same output; stored tool messages whose
`tool_call_id` matches no stored assistant ToolCall are rewritten to
plain assistant messages — but tool messages with a missing or empty
`tool_call_id` are emitted unchanged, so only the truthy-id ones are
guaranteed paired. -/
theorem C1_tool_pairing (m : Memory) :
    pairedToolMessages m.get_memory_with_summaries := by
  unfold Memory.get_memory_with_summaries
  apply paired_foldl
  · intro id hin
    exact collect_mem_emits m.messages id hin
  · apply paired_of_no_tool
    intro msg hmem
    obtain ⟨s, _, rfl⟩ := List.mem_map.mp hmem
    intro hcon
    cases hcon

/-- C1 witness: in the output for a paired assistant/tool store, the
tool message at index 1 is supported by an earlier assistant message
emitting its id. -/
theorem C1_tool_pairing_witness :
    ∃ j am, j < 1 ∧ (memPaired.get_memory_with_summaries).get? j = some am ∧
      assistantEmits am "call-1" :=
  C1_tool_pairing memPaired 1 toolRespMessage "call-1" rfl rfl rfl (by decide)

/-! ## Plan status bookkeeping lemmas -/

theorem getD_set_self {α : Type} (l : List α) (i : Nat) (a d : α) (h : i < l.length) :
    (l.set i a).getD i d = a := by
  simp [List.getD_eq_getElem?_getD, List.getElem?_set_self', h]

theorem getD_set_ne {α : Type} (l : List α) (i j : Nat) (a d : α) (h : j ≠ i) :
    (l.set i a).getD j d = l.getD j d := by
  simp [List.getD_eq_getElem?_getD, List.getElem?_set_ne (fun hh => h hh.symm)]

theorem getD_append_lt {α : Type} (l1 l2 : List α) (j : Nat) (d : α) (h : j < l1.length) :
    (l1 ++ l2).getD j d = l1.getD j d := by
  simp [List.getD_eq_getElem?_getD, List.getElem?_append_left h]

theorem getD_append_ge {α : Type} (l1 l2 : List α) (j : Nat) (d : α) (h : l1.length ≤ j) :
    (l1 ++ l2).getD j d = l2.getD (j - l1.length) d := by
  simp [List.getD_eq_getElem?_getD, List.getElem?_append_right h]

theorem getD_replicate {α : Type} (n j : Nat) (a d : α) :
    (List.replicate n a).getD j d = if j < n then a else d := by
  rcases Nat.lt_or_ge j n with hj | hj
  · simp [List.getD_eq_getElem?_getD, List.getElem?_replicate, hj]
  · have hnone : (List.replicate n a)[j]? = none :=
      List.getElem?_eq_none (by simpa using hj)
    simp [List.getD_eq_getElem?_getD, hnone, Nat.not_lt.mpr hj]

theorem getD_ge {α : Type} (l : List α) (j : Nat) (d : α) (h : l.length ≤ j) :
    l.getD j d = d := by
  simp [List.getD_eq_getElem?_getD, List.getElem?_eq_none h]

theorem statusAt_pad (p : Plan) (n j : Nat) :
    (p.step_statuses ++ List.replicate n PlanStepStatus.not_started).getD j .not_started
      = statusAt p j := by
  unfold statusAt
  rcases Nat.lt_or_ge j p.step_statuses.length with hj | hj
  · rw [getD_append_lt _ _ _ _ hj]
  · rw [getD_append_ge _ _ _ _ hj, getD_replicate, getD_ge _ _ _ hj]
    split <;> rfl

theorem mark_step_some (p : Plan) (i : Nat) (st : PlanStepStatus) (p1 : Plan)
    (h : PlanningTool.mark_step p i st = some p1) :
    p1 = { p with step_statuses := p.step_statuses.set i st } ∧
      i < p.step_statuses.length := by
  unfold PlanningTool.mark_step at h
  split at h
  · refine ⟨?_, by assumption⟩
    injection h with h2
    exact h2.symm
  · cases h

theorem updateStepStatus_statusAt_self (b : Bool) (p : Plan) (i : Nat) (st : PlanStepStatus) :
    statusAt (updateStepStatus b p i st).1 i = st := by
  unfold updateStepStatus
  cases hm : (if b = true then PlanningTool.mark_step p i st else none) with
  | some p1 =>
    have hb : PlanningTool.mark_step p i st = some p1 := by
      cases b
      · simp at hm
      · simpa using hm
    obtain ⟨rfl, hlen⟩ := mark_step_some p i st p1 hb
    exact getD_set_self _ _ _ _ hlen
  | none =>
    dsimp only
    apply getD_set_self
    simp only [List.length_append, List.length_replicate]
    omega

theorem updateStepStatus_statusAt_ne (b : Bool) (p : Plan) (i : Nat) (st : PlanStepStatus)
    (j : Nat) (hne : j ≠ i) :
    statusAt (updateStepStatus b p i st).1 j = statusAt p j := by
  unfold updateStepStatus
  cases hm : (if b = true then PlanningTool.mark_step p i st else none) with
  | some p1 =>
    have hb : PlanningTool.mark_step p i st = some p1 := by
      cases b
      · simp at hm
      · simpa using hm
    obtain ⟨rfl, _⟩ := mark_step_some p i st p1 hb
    exact getD_set_ne _ _ _ _ _ hne
  | none =>
    dsimp only
    unfold statusAt
    dsimp only
    rw [getD_set_ne _ _ _ _ _ hne]
    exact statusAt_pad p _ j

theorem updateStepStatus_steps (b : Bool) (p : Plan) (i : Nat) (st : PlanStepStatus) :
    (updateStepStatus b p i st).1.steps = p.steps := by
  unfold updateStepStatus
  cases hm : (if b = true then PlanningTool.mark_step p i st else none) with
  | some p1 =>
    have hb : PlanningTool.mark_step p i st = some p1 := by
      cases b
      · simp at hm
      · simpa using hm
    obtain ⟨rfl, _⟩ := mark_step_some p i st p1 hb
    rfl
  | none => rfl

theorem active_status_cases (st : PlanStepStatus)
    (h : PlanStepStatus.get_active_statuses.contains st = true) :
    st = .not_started ∨ st = .in_progress := by
  cases st <;> simp [PlanStepStatus.get_active_statuses] at h <;> simp

theorem getCurrentStepInfo_steps (b : Bool) (p : Plan) :
    (getCurrentStepInfo b p).1.steps = p.steps := by
  unfold getCurrentStepInfo
  dsimp only
  cases hf : (p.step_statuses ++
      List.replicate (p.steps.length - p.step_statuses.length)
        PlanStepStatus.not_started).findIdx? (fun st => st == PlanStepStatus.in_progress) with
  | some i =>
    dsimp only
    split <;> rfl
  | none =>
    dsimp only
    cases hz : (List.range p.steps.length).find?
        (fun i => PlanStepStatus.get_active_statuses.contains
          ((p.step_statuses ++
            List.replicate (p.steps.length - p.step_statuses.length)
              PlanStepStatus.not_started).getD i PlanStepStatus.not_started)) with
    | some i =>
      dsimp only
      rw [updateStepStatus_steps]
    | none => rfl

theorem getD_lt {α : Type} (l : List α) (j : Nat) (d : α) (h : j < l.length) :
    l.getD j d = l[j] := by
  simp [List.getD_eq_getElem?_getD, List.getElem?_eq_getElem h]

theorem getCurrentStepInfo_cases (b : Bool) (p : Plan) :
    ((∀ j, statusAt (getCurrentStepInfo b p).1 j = statusAt p j) ∧
        (getCurrentStepInfo b p).2 = none) ∨
      (∃ i, (getCurrentStepInfo b p).2 = some i ∧ i < p.steps.length ∧
        statusAt p i = .in_progress ∧
        (∀ j, statusAt (getCurrentStepInfo b p).1 j = statusAt p j)) ∨
      (∃ i, (getCurrentStepInfo b p).2 = some i ∧ i < p.steps.length ∧
        statusAt p i = .not_started ∧ (∀ j, statusAt p j ≠ .in_progress) ∧
        statusAt (getCurrentStepInfo b p).1 i = .in_progress ∧
        (∀ j, j ≠ i → statusAt (getCurrentStepInfo b p).1 j = statusAt p j)) := by
  unfold getCurrentStepInfo
  dsimp only
  cases hf : (p.step_statuses ++
      List.replicate (p.steps.length - p.step_statuses.length)
        PlanStepStatus.not_started).findIdx? (fun st => st == PlanStepStatus.in_progress) with
  | some i =>
    dsimp only
    obtain ⟨hlt, hidx⟩ := List.findIdx?_eq_some_iff_findIdx_eq.mp hf
    have hw : (p.step_statuses ++
        List.replicate (p.steps.length - p.step_statuses.length)
          PlanStepStatus.not_started).findIdx (fun st => st == PlanStepStatus.in_progress) <
        (p.step_statuses ++
          List.replicate (p.steps.length - p.step_statuses.length)
            PlanStepStatus.not_started).length := by rw [hidx]; exact hlt
    have hbeq := @List.findIdx_getElem _ (fun st => st == PlanStepStatus.in_progress)
      (p.step_statuses ++
        List.replicate (p.steps.length - p.step_statuses.length)
          PlanStepStatus.not_started) hw
    simp only [hidx] at hbeq
    have hp : statusAt p i = .in_progress := by
      rw [← statusAt_pad p (p.steps.length - p.step_statuses.length) i, getD_lt _ _ _ hlt]
      exact eq_of_beq hbeq
    split
    · right; left
      exact ⟨i, rfl, by assumption, hp, fun j => statusAt_pad p _ j⟩
    · left
      exact ⟨fun j => statusAt_pad p _ j, rfl⟩
  | none =>
    dsimp only
    have hall := List.findIdx?_eq_none_iff.mp hf
    have hno : ∀ j, statusAt p j ≠ .in_progress := by
      intro j
      rcases Nat.lt_or_ge j (p.step_statuses ++
          List.replicate (p.steps.length - p.step_statuses.length)
            PlanStepStatus.not_started).length with hj | hj
      · rw [← statusAt_pad p (p.steps.length - p.step_statuses.length) j, getD_lt _ _ _ hj]
        intro hcon
        have hfalse := hall _ (List.getElem_mem hj)
        rw [hcon] at hfalse
        simp at hfalse
      · rw [← statusAt_pad p (p.steps.length - p.step_statuses.length) j, getD_ge _ _ _ hj]
        simp
    cases hz : (List.range p.steps.length).find?
        (fun i => PlanStepStatus.get_active_statuses.contains
          ((p.step_statuses ++
            List.replicate (p.steps.length - p.step_statuses.length)
              PlanStepStatus.not_started).getD i PlanStepStatus.not_started)) with
    | some i =>
      dsimp only
      right; right
      have hiN : i < p.steps.length := List.mem_range.mp (List.mem_of_find?_eq_some hz)
      have hact := List.find?_some hz
      have hst := active_status_cases _ hact
      rw [statusAt_pad] at hst
      have hns : statusAt p i = .not_started := hst.resolve_right (hno i)
      refine ⟨i, rfl, hiN, hns, hno, updateStepStatus_statusAt_self b _ i _, ?_⟩
      intro j hj
      rw [updateStepStatus_statusAt_ne b _ i _ j hj]
      exact statusAt_pad p _ j
    | none =>
      left
      exact ⟨fun j => statusAt_pad p _ j, rfl⟩

theorem getCurrentStepInfo_some_lt (b : Bool) (p : Plan) (i : Nat)
    (h : (getCurrentStepInfo b p).2 = some i) : i < p.steps.length := by
  rcases getCurrentStepInfo_cases b p with ⟨_, hn⟩ | ⟨i0, hs, hlt, _⟩ | ⟨i0, hs, hlt, _⟩ <;>
    first
      | (rw [h] at hn; cases hn)
      | (rw [h] at hs; injection hs with h2; exact h2 ▸ hlt)

theorem getCurrentStepInfo_some_not_completed (b : Bool) (p : Plan) (i : Nat)
    (h : (getCurrentStepInfo b p).2 = some i) : statusAt p i ≠ .completed := by
  rcases getCurrentStepInfo_cases b p with ⟨_, hn⟩ | ⟨i0, hs, _, hst, _⟩ | ⟨i0, hs, _, hst, _⟩
  · rw [h] at hn; cases hn
  · rw [h] at hs
    injection hs with h2
    rw [← h2] at hst
    rw [hst]
    intro hcon
    cases hcon
  · rw [h] at hs
    injection hs with h2
    rw [← h2] at hst
    rw [hst]
    intro hcon
    cases hcon

theorem getCurrentStepInfo_completed_preserved (b : Bool) (p : Plan) (j : Nat)
    (h : statusAt p j = .completed) :
    statusAt (getCurrentStepInfo b p).1 j = .completed := by
  rcases getCurrentStepInfo_cases b p with ⟨hall, _⟩ | ⟨i0, _, _, _, hall⟩ |
      ⟨i0, _, _, hns, _, _, hne⟩
  · rw [hall j]; exact h
  · rw [hall j]; exact h
  · have hji : j ≠ i0 := by
      intro hcon
      rw [hcon, hns] at h
      cases h
    rw [hne j hji]; exact h

theorem getCurrentStepInfo_amoip (b : Bool) (p : Plan) (h : AtMostOneInProgress p) :
    AtMostOneInProgress (getCurrentStepInfo b p).1 := by
  rcases getCurrentStepInfo_cases b p with ⟨hall, _⟩ | ⟨i0, _, _, _, hall⟩ |
      ⟨i0, _, _, _, hno, _, hne⟩
  · intro a c ha hc
    rw [hall a] at ha
    rw [hall c] at hc
    exact h a c ha hc
  · intro a c ha hc
    rw [hall a] at ha
    rw [hall c] at hc
    exact h a c ha hc
  · intro a c ha hc
    have haa : a = i0 := by
      by_contra hcon
      rw [hne a hcon] at ha
      exact hno a ha
    have hcc : c = i0 := by
      by_contra hcon
      rw [hne c hcon] at hc
      exact hno c hc
    rw [haa, hcc]

theorem updateStepStatus_amoip_completed (b : Bool) (p : Plan) (i : Nat)
    (h : AtMostOneInProgress p) :
    AtMostOneInProgress (updateStepStatus b p i .completed).1 := by
  intro a c ha hc
  have ha2 : statusAt p a = .in_progress := by
    by_cases hai : a = i
    · rw [hai, updateStepStatus_statusAt_self] at ha
      cases ha
    · rwa [updateStepStatus_statusAt_ne _ _ _ _ _ hai] at ha
  have hc2 : statusAt p c = .in_progress := by
    by_cases hci : c = i
    · rw [hci, updateStepStatus_statusAt_self] at hc
      cases hc
    · rwa [updateStepStatus_statusAt_ne _ _ _ _ _ hci] at hc
  exact h a c ha2 hc2

theorem getCurrentStepInfo_resume (b : Bool) (p : Plan) (i : Nat)
    (hip : statusAt p i = .in_progress) (hiN : i < p.steps.length) :
    ∃ i0, (getCurrentStepInfo b p).2 = some i0 ∧ statusAt p i0 = .in_progress ∧ i0 ≤ i ∧
      ∀ j, statusAt (getCurrentStepInfo b p).1 j = statusAt p j := by
  have hilen : i < p.step_statuses.length := by
    by_contra hcon
    unfold statusAt at hip
    rw [getD_ge _ _ _ (Nat.le_of_not_lt hcon)] at hip
    cases hip
  have hiL : i < (p.step_statuses ++
      List.replicate (p.steps.length - p.step_statuses.length)
        PlanStepStatus.not_started).length := by
    simp only [List.length_append, List.length_replicate]
    omega
  have hLi : (p.step_statuses ++
      List.replicate (p.steps.length - p.step_statuses.length)
        PlanStepStatus.not_started)[i] = PlanStepStatus.in_progress := by
    rw [← getD_lt _ _ PlanStepStatus.not_started hiL, statusAt_pad]
    exact hip
  have hfound : ∃ x ∈ (p.step_statuses ++
      List.replicate (p.steps.length - p.step_statuses.length)
        PlanStepStatus.not_started),
      (x == PlanStepStatus.in_progress) = true := by
    exact ⟨_, List.getElem_mem hiL, beq_iff_eq.mpr hLi⟩
  have hwlt := List.findIdx_lt_length_of_exists hfound
  have hfind : (p.step_statuses ++
      List.replicate (p.steps.length - p.step_statuses.length)
        PlanStepStatus.not_started).findIdx? (fun st => st == PlanStepStatus.in_progress) =
      some ((p.step_statuses ++
        List.replicate (p.steps.length - p.step_statuses.length)
          PlanStepStatus.not_started).findIdx (fun st => st == PlanStepStatus.in_progress)) :=
    List.findIdx?_eq_some_iff_findIdx_eq.mpr ⟨hwlt, rfl⟩
  have hle : (p.step_statuses ++
      List.replicate (p.steps.length - p.step_statuses.length)
        PlanStepStatus.not_started).findIdx (fun st => st == PlanStepStatus.in_progress) ≤ i := by
    by_contra hcon
    have := List.not_of_lt_findIdx (Nat.lt_of_not_le hcon)
    rw [hLi] at this
    simp at this
  have hi0ip : statusAt p ((p.step_statuses ++
      List.replicate (p.steps.length - p.step_statuses.length)
        PlanStepStatus.not_started).findIdx (fun st => st == PlanStepStatus.in_progress)) =
      .in_progress := by
    rw [← statusAt_pad p (p.steps.length - p.step_statuses.length), getD_lt _ _ _ hwlt]
    exact eq_of_beq (@List.findIdx_getElem _ _ _ hwlt)
  refine ⟨_, ?_, hi0ip, hle, ?_⟩
  · unfold getCurrentStepInfo
    dsimp only
    rw [hfind]
    dsimp only
    rw [if_pos (by omega)]
  · intro j
    unfold getCurrentStepInfo
    dsimp only
    rw [hfind]
    dsimp only
    rw [if_pos (by omega)]
    exact statusAt_pad p _ j

theorem countsInv_step (k : Nat) (s : FlowState) (i : Nat) (pl : Plan) (dr : Nat → Nat)
    (it : Nat → Bool) (pn : Nat)
    (hinv : CountsInv k s)
    (hnc : statusAt s.plan i ≠ .completed)
    (hpres : ∀ j, statusAt s.plan j = .completed → statusAt pl j = .completed)
    (hcase : (s.counts i + 1 > k ∧ statusAt pl i = .completed ∧ dr = s.drives) ∨
      (s.counts i + 1 ≤ k ∧ dr = updAt s.drives i (s.drives i + 1))) :
    CountsInv k ⟨pl, updAt s.counts i (s.counts i + 1), it, pn, dr⟩ := by
  have hle : s.counts i ≤ k := by
    obtain ⟨hi1, hi2, _, _⟩ := hinv i
    rcases Nat.lt_or_ge (s.counts i) (k + 1) with hh | hh
    · omega
    · exact absurd (hi2 (by omega)) hnc
  intro j
  dsimp only
  obtain ⟨h1, h2, h3, h4⟩ := hinv j
  by_cases hji : j = i
  · subst hji
    have hcupd : updAt s.counts j (s.counts j + 1) j = s.counts j + 1 := by simp [updAt]
    have hdupd : updAt s.drives j (s.drives j + 1) j = s.drives j + 1 := by simp [updAt]
    rcases hcase with ⟨hgt, hcomp, hdr⟩ | ⟨hlt, hdr⟩ <;> subst hdr
    · exact ⟨by rw [hcupd]; omega, fun _ => hcomp,
        by rw [hcupd]; omega, h4⟩
    · exact ⟨by rw [hcupd]; omega, fun hc => by rw [hcupd] at hc; omega,
        by rw [hcupd, hdupd]; omega, by rw [hdupd]; omega⟩
  · have hcj : updAt s.counts i (s.counts i + 1) j = s.counts j := by
      simp [updAt, hji]
    have hdj : dr j = s.drives j := by
      rcases hcase with ⟨_, _, hdr⟩ | ⟨_, hdr⟩ <;> subst hdr <;> simp [updAt, hji]
    simp only [hcj, hdj]
    exact ⟨h1, fun hc => hpres j (h2 hc), h3, h4⟩

theorem flowMeasure_bump (k : Nat) (s : FlowState) (i : Nat) (pl : Plan) (dr : Nat → Nat)
    (it : Nat → Bool) (pn : Nat)
    (hsteps : pl.steps.length = s.plan.steps.length)
    (hiN : i < s.plan.steps.length)
    (hle : s.counts i ≤ k) :
    flowMeasure k ⟨pl, updAt s.counts i (s.counts i + 1), it, pn, dr⟩ < flowMeasure k s := by
  unfold flowMeasure
  dsimp only
  rw [hsteps]
  apply Finset.sum_lt_sum
  · intro j _
    by_cases hji : j = i <;> simp [updAt, hji] <;> omega
  · exact ⟨i, Finset.mem_range.mpr hiN, by simp [updAt]; omega⟩

theorem schedPass_amoip (k : Nat) (b : PassBehavior) (s : FlowState)
    (h : AtMostOneInProgress s.plan) :
    AtMostOneInProgress (schedPass k b s).state.plan := by
  have hgp := getCurrentStepInfo_amoip b.selectApiOk s.plan h
  rcases hg : getCurrentStepInfo b.selectApiOk s.plan with ⟨p1, r⟩
  rw [hg] at hgp
  unfold schedPass
  rw [hg]
  cases r with
  | none =>
    dsimp only [PassResult.state]
    exact hgp
  | some i =>
    dsimp only
    repeat' split
    all_goals dsimp only [PassResult.state]
    all_goals first
      | exact hgp
      | exact updateStepStatus_amoip_completed _ _ _ hgp

theorem schedPass_countsInv (k : Nat) (b : PassBehavior) (s : FlowState)
    (hinv : CountsInv k s) : CountsInv k (schedPass k b s).state := by
  rcases hg : getCurrentStepInfo b.selectApiOk s.plan with ⟨p1, r⟩
  have hpres : ∀ j, statusAt s.plan j = .completed → statusAt p1 j = .completed := by
    intro j hj
    have := getCurrentStepInfo_completed_preserved b.selectApiOk s.plan j hj
    rwa [hg] at this
  unfold schedPass
  rw [hg]
  cases r with
  | none =>
    dsimp only [PassResult.state]
    intro j
    obtain ⟨h1, h2, h3, h4⟩ := hinv j
    exact ⟨h1, fun hc => hpres j (h2 hc), h3, h4⟩
  | some i =>
    have hnc : statusAt s.plan i ≠ .completed := by
      apply getCurrentStepInfo_some_not_completed b.selectApiOk s.plan i
      rw [hg]
    have hpres2 : ∀ j, statusAt s.plan j = .completed →
        statusAt (updateStepStatus b.markApiOk p1 i .completed).1 j = .completed := by
      intro j hj
      by_cases hji : j = i
      · rw [hji]
        exact updateStepStatus_statusAt_self _ _ _ _
      · rw [updateStepStatus_statusAt_ne _ _ _ _ _ hji]
        exact hpres j hj
    dsimp only
    repeat' split
    all_goals dsimp only [PassResult.state]
    all_goals first
      | exact countsInv_step k s i _ _ _ _ hinv hnc hpres2
          (Or.inl ⟨by assumption, updateStepStatus_statusAt_self _ _ _ _, rfl⟩)
      | exact countsInv_step k s i _ _ _ _ hinv hnc hpres2
          (Or.inr ⟨by omega, rfl⟩)
      | exact countsInv_step k s i _ _ _ _ hinv hnc hpres
          (Or.inr ⟨by omega, rfl⟩)

theorem schedPass_again_measure (k : Nat) (b : PassBehavior) (s : FlowState) (s1 : FlowState)
    (hinv : CountsInv k s) (h : schedPass k b s = .again s1) :
    flowMeasure k s1 < flowMeasure k s := by
  rcases hg : getCurrentStepInfo b.selectApiOk s.plan with ⟨p1, r⟩
  have hst1 : p1.steps = s.plan.steps := by
    have := getCurrentStepInfo_steps b.selectApiOk s.plan
    rwa [hg] at this
  unfold schedPass at h
  rw [hg] at h
  cases r with
  | none =>
    dsimp only at h
    cases h
  | some i =>
    have hiN : i < s.plan.steps.length := by
      apply getCurrentStepInfo_some_lt b.selectApiOk s.plan i
      rw [hg]
    have hnc : statusAt s.plan i ≠ .completed := by
      apply getCurrentStepInfo_some_not_completed b.selectApiOk s.plan i
      rw [hg]
    have hle : s.counts i ≤ k := by
      obtain ⟨hi1, hi2, _, _⟩ := hinv i
      rcases Nat.lt_or_ge (s.counts i) (k + 1) with hh | hh
      · omega
      · exact absurd (hi2 (by omega)) hnc
    have hstep2 : (updateStepStatus b.markApiOk p1 i .completed).1.steps.length =
        s.plan.steps.length := by
      rw [updateStepStatus_steps, hst1]
    dsimp only at h
    repeat' split at h
    all_goals first
      | (injection h with h2
         subst h2
         exact flowMeasure_bump k s i _ _ _ _
           (by first | exact hstep2 | rw [hst1]) hiN hle)
      | simp at h

theorem executeLoop_safe (o : Nat → PassBehavior) (k : Nat) :
    ∀ (fuel : Nat) (s : FlowState), CountsInv k s → flowMeasure k s < fuel →
      executeLoop o k fuel s ≠ none ∧
        ∀ out, executeLoop o k fuel s = some out → CountsInv k out.state := by
  intro fuel
  induction fuel with
  | zero =>
    intro s _ hm
    exact absurd hm (Nat.not_lt_zero _)
  | succ n ih =>
    intro s hinv hm
    have hps := schedPass_countsInv k (o s.passNo) s hinv
    unfold executeLoop
    cases hsp : schedPass k (o s.passNo) s with
    | finalize s1 =>
      rw [hsp] at hps
      refine ⟨by simp, fun out hout => ?_⟩
      injection hout with h2
      rw [← h2]
      exact hps
    | agentBreak s1 =>
      rw [hsp] at hps
      refine ⟨by simp, fun out hout => ?_⟩
      injection hout with h2
      rw [← h2]
      exact hps
    | failed s1 =>
      rw [hsp] at hps
      refine ⟨by simp, fun out hout => ?_⟩
      injection hout with h2
      rw [← h2]
      exact hps
    | again s1 =>
      rw [hsp] at hps
      have hdec := schedPass_again_measure k (o s.passNo) s s1 hinv hsp
      exact ih s1 hps (by omega)

/-! ## C3 -/

/-- C3: the scheduler loop of `PlanningFlow.execute` terminates — with
`max_executions_per_step = k` (the source fixes `k = 3`,
`max_executions_per_step`), a plan with `N` steps is finished within
`N * (k + 1) + 1` passes (the loop never runs out of that fuel); no
step is driven more than `k` times; and a step selected more than `k`
times is forcibly marked Completed while the loop continues. -/
theorem C3_execute_terminates (o : Nat → PassBehavior) (k : Nat) (p : Plan) :
    executeLoop o k (p.steps.length * (k + 1) + 1) (initFlowState p) ≠ none ∧
      (∀ out, executeLoop o k (p.steps.length * (k + 1) + 1) (initFlowState p) = some out →
        ∀ i, out.state.drives i ≤ k) ∧
      (∀ (b : PassBehavior) (s : FlowState) (i : Nat),
        (getCurrentStepInfo b.selectApiOk s.plan).2 = some i → s.counts i + 1 > k →
        ∃ s1, schedPass k b s = .again s1 ∧ statusAt s1.plan i = .completed) := by
  have hinv0 : CountsInv k (initFlowState p) := by
    intro i
    refine ⟨by simp [initFlowState], fun hc => ?_, by simp [initFlowState],
      by simp [initFlowState]⟩
    exfalso
    simp [initFlowState] at hc
  have hm0 : flowMeasure k (initFlowState p) = p.steps.length * (k + 1) := by
    unfold flowMeasure initFlowState
    simp [Finset.sum_const, Finset.card_range, Nat.mul_comm]
  obtain ⟨hne, hall⟩ := executeLoop_safe o k (p.steps.length * (k + 1) + 1)
    (initFlowState p) hinv0 (by omega)
  refine ⟨hne, fun out hout i => ((hall out hout) i).2.2.2, ?_⟩
  intro b s i hsel hc
  rcases hg : getCurrentStepInfo b.selectApiOk s.plan with ⟨p1, r⟩
  rw [hg] at hsel
  dsimp only at hsel
  subst hsel
  refine ⟨⟨(updateStepStatus b.markApiOk p1 i .completed).1,
      updAt s.counts i (s.counts i + 1), s.inter, s.passNo + 1, s.drives⟩, ?_, ?_⟩
  · unfold schedPass
    rw [hg]
    dsimp only
    rw [if_pos hc]
  · exact updateStepStatus_statusAt_self _ _ _ _

/-- C3 witness: the two-step plan finishes within its fuel, and a step
already selected five times is force-completed on the next pass. -/
theorem C3_execute_terminates_witness :
    executeLoop oracleAllOk max_executions_per_step
        (planTwoSteps.steps.length * (max_executions_per_step + 1) + 1)
        (initFlowState planTwoSteps) ≠ none ∧
      ∃ s1, schedPass max_executions_per_step passAllOk sOverBudget = .again s1 ∧
        statusAt s1.plan 0 = .completed :=
  ⟨(C3_execute_terminates oracleAllOk max_executions_per_step planTwoSteps).1,
    (C3_execute_terminates oracleAllOk max_executions_per_step planTwoSteps).2.2 passAllOk
      sOverBudget 0 rfl (by decide)⟩

/-! ## C4 -/

/-- C4: at every point during `Execute` at most one plan step is
`in_progress`.  Conjuncts: (1) step selection returns an
already-in-progress step with every status unchanged (padding aside)
when one exists; (2) one scheduler pass preserves the
at-most-one-in-progress invariant — including when the planning-tool
call fails and `_update_step_status` falls back to direct mutation
(`markApiOk`/`selectApiOk` arbitrary); (3) the whole loop preserves it;
(4) a freshly created plan satisfies it (all steps NotStarted). -/
theorem C4_single_in_progress :
    (∀ (b : Bool) (p : Plan) (i : Nat), statusAt p i = .in_progress → i < p.steps.length →
        ∃ i0, (getCurrentStepInfo b p).2 = some i0 ∧ statusAt p i0 = .in_progress ∧ i0 ≤ i ∧
          ∀ j, statusAt (getCurrentStepInfo b p).1 j = statusAt p j) ∧
      (∀ (k : Nat) (b : PassBehavior) (s : FlowState), AtMostOneInProgress s.plan →
        AtMostOneInProgress (schedPass k b s).state.plan) ∧
      (∀ (o : Nat → PassBehavior) (k fuel : Nat) (s : FlowState) (out : FlowOutcome),
        AtMostOneInProgress s.plan → executeLoop o k fuel s = some out →
        AtMostOneInProgress out.state.plan) ∧
      (∀ steps : List String, AtMostOneInProgress (PlanningTool.create steps)) := by
  refine ⟨getCurrentStepInfo_resume, schedPass_amoip, ?_, ?_⟩
  · intro o k fuel
    induction fuel with
    | zero =>
      intro s out _ hout
      cases hout
    | succ n ih =>
      intro s out hs hout
      have hps := schedPass_amoip k (o s.passNo) s hs
      unfold executeLoop at hout
      cases hsp : schedPass k (o s.passNo) s with
      | finalize s1 =>
        rw [hsp] at hout hps
        injection hout with h2
        rw [← h2]
        exact hps
      | agentBreak s1 =>
        rw [hsp] at hout hps
        injection hout with h2
        rw [← h2]
        exact hps
      | failed s1 =>
        rw [hsp] at hout hps
        injection hout with h2
        rw [← h2]
        exact hps
      | again s1 =>
        rw [hsp] at hout hps
        exact ih s1 out hps hout
  · intro steps i j hi hj
    exfalso
    unfold PlanningTool.create statusAt at hi
    dsimp only at hi
    rcases Nat.lt_or_ge i (steps.map (fun _ => PlanStepStatus.not_started)).length with hlt | hge
    · rw [getD_lt _ _ _ hlt, List.getElem_map] at hi
      cases hi
    · rw [getD_ge _ _ _ hge] at hi
      cases hi

/-- C4 witness: resumption at a plan whose step 1 is in progress, and
invariant preservation through one pass on a fresh two-step plan. -/
theorem C4_single_in_progress_witness :
    (∃ i0, (getCurrentStepInfo true planResume).2 = some i0 ∧
        statusAt planResume i0 = .in_progress ∧ i0 ≤ 1 ∧
        ∀ j, statusAt (getCurrentStepInfo true planResume).1 j = statusAt planResume j) ∧
      AtMostOneInProgress (schedPass 3 passAllOk (initFlowState planTwoSteps)).state.plan :=
  ⟨C4_single_in_progress.1 true planResume 1 (by decide) (by decide),
    C4_single_in_progress.2.1 3 passAllOk (initFlowState planTwoSteps)
      (C4_single_in_progress.2.2.2 ["analyze requirements", "execute task"])⟩

/-! ## C8 -/

/-- C8: when the executing agent's state is `FINISHED` after a driven
step (a terminal tool was invoked), the scheduler pass ends in the
loop's `break`, and the loop then returns immediately — independent of
the remaining fuel, i.e. regardless of how many uncompleted steps
remain in the plan. -/
theorem C8_agent_finished_breaks :
    (∀ (k : Nat) (b : PassBehavior) (s : FlowState) (i : Nat),
        (getCurrentStepInfo b.selectApiOk s.plan).2 = some i → s.counts i + 1 ≤ k →
        b.finished = true → (b.hasEPS = true → ¬ b.outcome = .raised) →
        ∃ s1, schedPass k b s = .agentBreak s1) ∧
      (∀ (o : Nat → PassBehavior) (k fuel : Nat) (s s1 : FlowState),
        schedPass k (o s.passNo) s = .agentBreak s1 →
        executeLoop o k (fuel + 1) s = some (.agentFinished s1)) := by
  constructor
  · intro k b s i hsel hcle hfin hnr
    rcases hg : getCurrentStepInfo b.selectApiOk s.plan with ⟨p1, r⟩
    rw [hg] at hsel
    dsimp only at hsel
    subst hsel
    unfold schedPass
    rw [hg]
    dsimp only
    rw [if_neg (by omega)]
    by_cases he : b.hasEPS = true
    · rw [if_pos he]
      cases ho : b.outcome with
      | raised => exact absurd ho (hnr he)
      | completed =>
        dsimp only
        rw [if_pos hfin]
        exact ⟨_, rfl⟩
      | incomplete =>
        dsimp only
        rw [if_pos hfin]
        exact ⟨_, rfl⟩
    · rw [if_neg he]
      cases ho : b.outcome <;> dsimp only <;> rw [if_pos hfin] <;> exact ⟨_, rfl⟩
  · intro o k fuel s s1 h
    unfold executeLoop
    rw [h]

/-- C8 witness: a finishing executor breaks the loop on a fresh
two-step plan after its first step, and the loop returns immediately
with four passes of fuel to spare. -/
theorem C8_agent_finished_breaks_witness :
    ∃ s1, executeLoop oracleFinish 3 5 (initFlowState planTwoSteps) =
      some (.agentFinished s1) := by
  obtain ⟨s1, hs1⟩ := C8_agent_finished_breaks.1 3 passFinish (initFlowState planTwoSteps) 0
    rfl (by decide) rfl (fun _ => by decide)
  exact ⟨s1, C8_agent_finished_breaks.2 oracleFinish 3 4 (initFlowState planTwoSteps) s1 hs1⟩

end Nephesh
